import Mathlib

/-!
SimpleVector: a shallow embedding of `simple-vector/simple_vector.h`

The container owns one block of `capacity_` slots (`items_`) and tracks a
logical `size_`.  The embedding keeps the three fields of the class and models
every member function as a function on that record.

Conventions of the embedding

* A block is the list of its slots; its length is the number of allocated
  slots.  A null block is the empty list.
* An iterator is the offset of the slot it points to, counted from `begin()`.
* Reading or writing a slot outside the block is undefined behaviour in C++;
  here it is the explicit result `Fault.undefinedBehaviour`.  A violated
  `assert` is `Fault.assertFailed` (assertions are modelled as enabled), and
  the exception thrown by `At` is `Fault.outOfRange`.
* `size_t` and the `int` counters of `Insert`/`Erase` are natural numbers: the
  element counts considered stay below the point where those types wrap.  The
  single place where the source relies on wrap-around, `--size_` in `PopBack`
  on an empty vector, is modelled explicitly.
* A move out of a slot of the vector's own block leaves `MoveSem.movedFrom` of
  the value behind (for trivially copyable types this is the identity).  A
  move out of a block that is released at the end of the member function is
  modelled as a read, since the residue can never be observed.
* The element type's `==` is its decidable equality and its `<` a decidable
  relation; the comparison operators return `Except Fault Bool` because they
  read the blocks of both operands.
* Copy assignment receives a flag telling whether `this == &rhs`, the one
  fact about addresses the source tests.
* The parameter `const Type& item` of `PushBack` is an `Arg`: an object
  outside the vector, or a slot of the vector's own block (`v.PushBack(v[0])`).
  `PushBack` reads it after `IncreaseCapacity` has released the old block, so
  a reference into that block dangles and reading it is undefined behaviour.
  The other members read their parameter while the block the vector owned at
  the call is still alive, so they take the value the reference designates.
-/

namespace SV

/-- Ways in which a member function can fail to return normally. -/
inductive Fault where
  | outOfRange
  | assertFailed
  | undefinedBehaviour
  | outOfFuel
  deriving DecidableEq, Repr

/-- Residue that a move leaves in its source object. -/
class MoveSem (α : Type) where
  movedFrom : α → α

instance : MoveSem Nat := ⟨id⟩

/-- Modelled from the spec: `array_ptr.h` (class `ArrayPtr`) is not among the
sources.  The spec describes it as an exclusively owned fixed-size block with
index access and a swap operation; the block is the list of its slots. -/
abbrev ArrayPtr (α : Type) := List α

/-- Modelled from the spec: the constructor `ArrayPtr(size)` of the missing
`array_ptr.h`, "allocate a block holding exactly N default-valued elements". -/
def ArrayPtr.alloc {α : Type} [Inhabited α] (n : Nat) : ArrayPtr α :=
  List.replicate n default

/-- Modelled from the spec: the move constructor of the missing `ArrayPtr`,
"buffer ownership transfers"; it yields the new owner and the state of the
source, which is left owning no block. -/
def ArrayPtr.moveOut {α : Type} (a : ArrayPtr α) : ArrayPtr α × ArrayPtr α :=
  (a, [])

/-- Read of slot `i` (`a[i]`, `a.Get()[i]`, `*it`): undefined outside the block. -/
def ArrayPtr.read {α : Type} (a : ArrayPtr α) (i : Nat) : Except Fault α :=
  match a[i]? with
  | some x => .ok x
  | none => .error .undefinedBehaviour

/-- Write of slot `i` (`a[i] = x`): undefined outside the block. -/
def ArrayPtr.write {α : Type} (a : ArrayPtr α) (i : Nat) (x : α) :
    Except Fault (ArrayPtr α) :=
  if i < a.length then .ok (a.set i x) else .error .undefinedBehaviour

/-- The loop `for (i = 0; i < n; ++i) dst[i] = src[i];`, which is also
`std::copy(src, src + n, dst)`. -/
def copyLoop {α : Type} (src : ArrayPtr α) : Nat → ArrayPtr α → Except Fault (ArrayPtr α)
  | 0, dst => .ok dst
  | n + 1, dst => do
      let d ← copyLoop src n dst
      let x ← ArrayPtr.read src n
      ArrayPtr.write d n x

/-- The algorithm `std::fill(a, a + n, value)`. -/
def fillLoop {α : Type} (value : α) : Nat → ArrayPtr α → Except Fault (ArrayPtr α)
  | 0, a => .ok a
  | n + 1, a => do
      let a1 ← fillLoop value n a
      ArrayPtr.write a1 n value

/-- The capacity hint object `ReserveProxyObj`. -/
structure ReserveProxyObj where
  capacity_ : Nat
  deriving DecidableEq, Repr

/-- Accessor `ReserveProxyObj::ReserveCapasity`. -/
def ReserveProxyObj.ReserveCapasity (r : ReserveProxyObj) : Nat := r.capacity_

/-- The free function `Reserve(capacity_to_reserve)`. -/
def Reserve (capacity_to_reserve : Nat) : ReserveProxyObj := ⟨capacity_to_reserve⟩

/-- The object a `const Type&` parameter is bound to: an object outside the
vector, or slot `i` of the block the vector owns when the call is made. -/
inductive Arg (α : Type) where
  | value (x : α)
  | slot (i : Nat)
  deriving DecidableEq, Repr

/-- Read through a `const Type&` parameter.  `items` is the block the vector
owned when the call was made and `released` tells whether that block has been
released since: a reference into a released block dangles. -/
def Arg.read {α : Type} (item : Arg α) (items : ArrayPtr α) (released : Bool) :
    Except Fault α :=
  match item with
  | .value x => .ok x
  | .slot i => if released then .error .undefinedBehaviour else ArrayPtr.read items i

/-- The class `SimpleVector<Type>`: its three data members. -/
structure SimpleVector (α : Type) where
  items_ : ArrayPtr α
  capacity_ : Nat
  size_ : Nat
  deriving DecidableEq, Repr

namespace SimpleVector

variable {α : Type}

/-- Invariants I1 and I2: `size_ ≤ capacity_` and the block has exactly
`capacity_` slots. -/
def WellFormed (v : SimpleVector α) : Prop :=
  v.size_ ≤ v.capacity_ ∧ v.items_.length = v.capacity_

/-- The live elements: the first `size_` slots of the block. -/
def elements (v : SimpleVector α) : List α := v.items_.take v.size_

/-- Default constructor `SimpleVector()`. -/
def empty : SimpleVector α := { items_ := [], capacity_ := 0, size_ := 0 }

/-- Member `Reserve(new_capacity)`. -/
def Reserve [Inhabited α] (v : SimpleVector α) (new_capacity : Nat) :
    Except Fault (SimpleVector α) :=
  if new_capacity ≤ v.capacity_ then .ok v
  else do
    let tmp_items ← copyLoop v.items_ v.size_ (ArrayPtr.alloc new_capacity)
    pure { items_ := tmp_items, capacity_ := new_capacity, size_ := v.size_ }

/-- Constructor `SimpleVector(size, value)`. -/
def ofSizeValue [Inhabited α] (size : Nat) (value : α) : Except Fault (SimpleVector α) := do
  let items ← fillLoop value size (ArrayPtr.alloc size)
  pure { items_ := items, capacity_ := size, size_ := size }

/-- Constructor `SimpleVector(size)`, delegating to `SimpleVector(size, Type{})`. -/
def ofSize [Inhabited α] (size : Nat) : Except Fault (SimpleVector α) :=
  ofSizeValue size default

/-- Constructor `SimpleVector(ReserveProxyObj)`: `Reserve` on the default state. -/
def ofReserve [Inhabited α] (capacity_to_reserve : ReserveProxyObj) :
    Except Fault (SimpleVector α) :=
  Reserve empty capacity_to_reserve.ReserveCapasity

/-- Constructor `SimpleVector(std::initializer_list<Type>)`. -/
def ofInitList [Inhabited α] (init : List α) : Except Fault (SimpleVector α) := do
  let items ← copyLoop init init.length (ArrayPtr.alloc init.length)
  pure { items_ := items, capacity_ := init.length, size_ := init.length }

/-- Copy constructor `SimpleVector(const SimpleVector&)`: the new block is
allocated with `other.size_` slots while `capacity_` is taken from `other`. -/
def copy [Inhabited α] (other : SimpleVector α) : Except Fault (SimpleVector α) := do
  let new_array ← copyLoop other.items_ other.size_ (ArrayPtr.alloc other.size_)
  pure { items_ := new_array, capacity_ := other.capacity_, size_ := other.size_ }

/-- Move constructor `SimpleVector(SimpleVector&&)`: the new vector and the
state in which `other` is left. -/
def move (other : SimpleVector α) : SimpleVector α × SimpleVector α :=
  let p := ArrayPtr.moveOut other.items_
  ({ items_ := p.1, capacity_ := other.capacity_, size_ := other.size_ },
   { items_ := p.2, capacity_ := 0, size_ := 0 })

/-- Private helper `IncreaseCapacity(new_size)`. -/
def IncreaseCapacity [Inhabited α] (v : SimpleVector α) (new_size : Nat) :
    Except Fault (SimpleVector α) := do
  let new_array_capacity := max new_size (2 * v.capacity_)
  let new_array ← copyLoop v.items_ v.size_ (ArrayPtr.alloc new_array_capacity)
  pure { items_ := new_array, capacity_ := new_array_capacity, size_ := v.size_ }

/-- Overload `PushBack(const Type&)`.  `IncreaseCapacity` ends by destroying
its local `new_array`, which after the swap owns the old block; `item` is read
only afterwards, in `items_[size_] = item`. -/
def PushBack [Inhabited α] (v : SimpleVector α) (item : Arg α) :
    Except Fault (SimpleVector α) := do
  let v1 ← if v.size_ = v.capacity_ then IncreaseCapacity v (v.size_ + 1) else pure v
  let x ← Arg.read item v.items_ (decide (v.size_ = v.capacity_))
  let items ← ArrayPtr.write v1.items_ v1.size_ x
  pure { items_ := items, capacity_ := v1.capacity_, size_ := v1.size_ + 1 }

/-- Overload `PushBack(Type&&)`. -/
def PushBackMove [Inhabited α] (v : SimpleVector α) (item : α) :
    Except Fault (SimpleVector α) := do
  let new_capacity := if v.size_ = 0 then 1 else v.capacity_ * 2
  let array ← copyLoop v.items_ v.size_ (ArrayPtr.alloc new_capacity)
  let array ← ArrayPtr.write array v.size_ item
  pure { items_ := array, capacity_ := max v.capacity_ new_capacity, size_ := v.size_ + 1 }

/-- The loop of `Insert` over `it = begin() .. end()`, after its first `n`
iterations; the state is `(i, ins_pos, array)`. -/
def insertLoop (items : ArrayPtr α) (pos : Nat) (value : α) :
    Nat → Nat × Nat × ArrayPtr α → Except Fault (Nat × Nat × ArrayPtr α)
  | 0, st => .ok st
  | n + 1, st => do
      let (i, ins_pos, array) ← insertLoop items pos value n st
      let (i, ins_pos, array) ←
        if n = pos then do
          let a ← ArrayPtr.write array i value
          pure (i + 1, i, a)
        else pure (i, ins_pos, array)
      let x ← ArrayPtr.read items n
      let a ← ArrayPtr.write array i x
      pure (i + 1, ins_pos, a)

/-- The body shared by both overloads of `Insert`; the result is the vector
and the offset of the returned iterator `begin() + ins_pos`. -/
def insertBody [Inhabited α] (v : SimpleVector α) (pos : Nat) (value : α) :
    Except Fault (SimpleVector α × Nat) :=
  if ¬ pos ≤ v.size_ then .error .assertFailed
  else do
    let new_capacity :=
      if v.size_ = v.capacity_ then (if v.size_ = 0 then 1 else v.capacity_ * 2)
      else v.capacity_
    let array : ArrayPtr α := ArrayPtr.alloc new_capacity
    let (ins_pos, array) ←
      if v.size_ = 0 then do
        let a ← ArrayPtr.write array 0 value
        pure (0, a)
      else do
        let (_, ins_pos, a) ← insertLoop v.items_ pos value v.size_ (0, 0, array)
        if pos = v.size_ then do
          let a ← ArrayPtr.write a v.size_ value
          pure (v.size_, a)
        else pure (ins_pos, a)
    pure ({ items_ := array, capacity_ := new_capacity, size_ := v.size_ + 1 }, ins_pos)

/-- Overload `Insert(ConstIterator, const Type&)`. -/
def Insert [Inhabited α] (v : SimpleVector α) (pos : Nat) (value : α) :
    Except Fault (SimpleVector α × Nat) :=
  insertBody v pos value

/-- Overload `Insert(ConstIterator, Type&&)`: the same statements with `move`
applied to `value` and to the elements of the old block, which is released. -/
def InsertMove [Inhabited α] (v : SimpleVector α) (pos : Nat) (value : α) :
    Except Fault (SimpleVector α × Nat) :=
  insertBody v pos value

/-- Member `PopBack()`: `--size_` on a `size_t` (64 bit), wrapping at zero. -/
def PopBack (v : SimpleVector α) : SimpleVector α :=
  { v with size_ := if v.size_ = 0 then 2 ^ 64 - 1 else v.size_ - 1 }

/-- The loop `for (; pos != end() - 1; ++pos) *pos = move(*(pos + 1));` of
`Erase`, with `last` the offset of `end() - 1`. -/
def eraseLoop [MoveSem α] : Nat → ArrayPtr α → Nat → Nat → Except Fault (ArrayPtr α)
  | 0, buf, pos, last => if pos ≠ last then .error .outOfFuel else .ok buf
  | fuel + 1, buf, pos, last =>
      if pos ≠ last then do
        let x ← ArrayPtr.read buf (pos + 1)
        let b1 ← ArrayPtr.write buf pos x
        let b2 ← ArrayPtr.write b1 (pos + 1) (MoveSem.movedFrom x)
        eraseLoop fuel b2 (pos + 1) last
      else .ok buf

/-- Member `Erase(Iterator&&)`; the result is the vector and the offset of the
returned iterator `&items_.Get()[dis]`. -/
def Erase [MoveSem α] (v : SimpleVector α) (pos : Nat) :
    Except Fault (SimpleVector α × Nat) :=
  if ¬ 0 < v.size_ then .error .assertFailed
  else if ¬ pos ≤ v.size_ then .error .assertFailed
  else do
    let dis := pos
    let items ←
      if pos ≠ v.size_ then eraseLoop v.size_ v.items_ pos (v.size_ - 1)
      else pure v.items_
    pure ({ items_ := items, capacity_ := v.capacity_, size_ := v.size_ - 1 }, dis)

/-- Member `swap(SimpleVector&)`. -/
def swap (v other : SimpleVector α) : SimpleVector α × SimpleVector α :=
  (other, v)

/-- Accessor `GetSize()`. -/
def GetSize (v : SimpleVector α) : Nat := v.size_

/-- Accessor `GetCapacity()`. -/
def GetCapacity (v : SimpleVector α) : Nat := v.capacity_

/-- Accessor `IsEmpty()`. -/
def IsEmpty (v : SimpleVector α) : Bool := v.size_ == 0

/-- Member `At(index)` (const and non-const alike). -/
def At (v : SimpleVector α) (index : Nat) : Except Fault α :=
  if index ≥ v.size_ then .error .outOfRange
  else ArrayPtr.read v.items_ index

/-- Member `Clear()`. -/
def Clear (v : SimpleVector α) : SimpleVector α := { v with size_ := 0 }

/-- The loop of `Resize`:
`array[i] = i < size_ ? move(items_[i]) : Type()` for `i = 0 .. n`. -/
def resizeLoop [Inhabited α] (items : ArrayPtr α) (size : Nat) :
    Nat → ArrayPtr α → Except Fault (ArrayPtr α)
  | 0, array => .ok array
  | n + 1, array => do
      let a ← resizeLoop items size n array
      let x ← if n < size then ArrayPtr.read items n else pure default
      ArrayPtr.write a n x

/-- Member `Resize(new_size)`. -/
def Resize [Inhabited α] (v : SimpleVector α) (new_size : Nat) :
    Except Fault (SimpleVector α) :=
  if new_size < v.size_ ∨ new_size ≤ v.capacity_ then
    .ok { v with size_ := new_size }
  else if new_size > v.capacity_ then do
    let array ← resizeLoop v.items_ v.size_ new_size (ArrayPtr.alloc new_size)
    pure { items_ := array, capacity_ := new_size, size_ := new_size }
  else .ok v

/-- Content of slot `end() - 1` after the shifting loop of `Erase`: untouched
when nothing was shifted, otherwise the residue of the last move. -/
def eraseResidue [MoveSem α] (a : α) (mid : List α) : α :=
  match mid.getLast? with
  | some b => MoveSem.movedFrom b
  | none => a

/-- Copy assignment `operator=(const SimpleVector& rhs)`: the new state of
`*this`; `self` tells whether `this == &rhs`.  The temporary `new_vec`, which
holds the old state after the swap, is destroyed. -/
def opAssign [Inhabited α] (v rhs : SimpleVector α) (self : Bool) :
    Except Fault (SimpleVector α) :=
  if self = false then do
    let new_vec ← copy rhs
    pure (swap v new_vec).1
  else .ok v

/-- Unchecked index `operator[]` (const and non-const alike), with its
assertion. -/
def opIndex (v : SimpleVector α) (index : Nat) : Except Fault α :=
  if ¬ index ≤ v.size_ then .error .assertFailed
  else ArrayPtr.read v.items_ index

/-- The algorithm `std::equal(first1, last1, first2)` with `n = last1 - first1`
elements left and both iterators at offset `i`. -/
def equalLoop [DecidableEq α] (a b : ArrayPtr α) : Nat → Nat → Except Fault Bool
  | 0, _ => .ok true
  | n + 1, i => do
      let x ← ArrayPtr.read a i
      let y ← ArrayPtr.read b i
      if ¬ x = y then pure false else equalLoop a b n (i + 1)

/-- Free function `operator==`. -/
def opEq [DecidableEq α] (lhs rhs : SimpleVector α) : Except Fault Bool :=
  if lhs.GetSize = rhs.GetSize then equalLoop lhs.items_ rhs.items_ lhs.size_ 0
  else .ok false

/-- Free function `operator!=`. -/
def opNe [DecidableEq α] (lhs rhs : SimpleVector α) : Except Fault Bool := do
  let r ← opEq lhs rhs
  pure (!r)

/-- The algorithm `std::lexicographical_compare(first1, last1, first2, last2)`
with `n1 = last1 - first1` and `n2 = last2 - first2` elements left and both
iterators at offset `i`. -/
def lexicographicalCompareLoop [LT α] [DecidableRel (fun x y : α => x < y)]
    (a b : ArrayPtr α) : Nat → Nat → Nat → Except Fault Bool
  | 0, n2, _ => .ok (decide (n2 ≠ 0))
  | _ + 1, 0, _ => .ok false
  | n1 + 1, n2 + 1, i => do
      let x ← ArrayPtr.read a i
      let y ← ArrayPtr.read b i
      if x < y then pure true
      else if y < x then pure false
      else lexicographicalCompareLoop a b n1 n2 (i + 1)

/-- Free function `operator<`. -/
def opLt [LT α] [DecidableRel (fun x y : α => x < y)] (lhs rhs : SimpleVector α) :
    Except Fault Bool :=
  lexicographicalCompareLoop lhs.items_ rhs.items_ lhs.size_ rhs.size_ 0

/-- Free function `operator<=`. -/
def opLe [LT α] [DecidableRel (fun x y : α => x < y)] (lhs rhs : SimpleVector α) :
    Except Fault Bool := do
  let r ← opLt rhs lhs
  pure (!r)

/-- Free function `operator>`. -/
def opGt [LT α] [DecidableRel (fun x y : α => x < y)] (lhs rhs : SimpleVector α) :
    Except Fault Bool :=
  opLt rhs lhs

/-- Free function `operator>=`. -/
def opGe [LT α] [DecidableRel (fun x y : α => x < y)] (lhs rhs : SimpleVector α) :
    Except Fault Bool := do
  let r ← opLt lhs rhs
  pure (!r)

/-- The calls `v.PushBack(x1); ...; v.PushBack(xn);` made in this order. -/
def pushAll [Inhabited α] (v : SimpleVector α) :
    List (Arg α) → Except Fault (SimpleVector α)
  | [] => .ok v
  | x :: xs => do
      let w ← PushBack v x
      pushAll w xs

/-- The pure lexicographic comparison of two sequences that
`std::lexicographical_compare` computes on two ranges. -/
def lexList [LT α] [DecidableRel (fun x y : α => x < y)] : List α → List α → Bool
  | [], [] => false
  | [], _ :: _ => true
  | _ :: _, [] => false
  | x :: xs, y :: ys => if x < y then true else if y < x then false else lexList xs ys

/-! ## Results about reads, writes and the loops -/

theorem ok_bind {β γ : Type} (x : β) (f : β → Except Fault γ) :
    (Except.ok x >>= f) = f x := rfl

theorem error_bind {β γ : Type} (e : Fault) (f : β → Except Fault γ) :
    ((Except.error e : Except Fault β) >>= f) = .error e := rfl

theorem pure_eq_ok {β : Type} (x : β) : (pure x : Except Fault β) = .ok x := rfl

theorem read_ok (a : ArrayPtr α) (i : Nat) (h : i < a.length) :
    ArrayPtr.read a i = .ok (a.get ⟨i, h⟩) := by
  simp [ArrayPtr.read, List.getElem?_eq_getElem h]

theorem write_ok (a : ArrayPtr α) (i : Nat) (x : α) (h : i < a.length) :
    ArrayPtr.write a i x = .ok (a.set i x) := by
  simp [ArrayPtr.write, h]

theorem write_snoc (pre d : List α) (x : α) (h : pre.length < d.length) :
    ArrayPtr.write (pre ++ d.drop pre.length) pre.length x
      = .ok ((pre ++ [x]) ++ d.drop (pre.length + 1)) := by
  have hlen : pre.length < (pre ++ d.drop pre.length).length := by
    simp; omega
  rw [write_ok _ _ _ hlen]
  congr 1
  simp only [List.set_append, Nat.lt_irrefl, if_false, Nat.sub_self, List.append_assoc]
  rw [List.drop_eq_getElem_cons h]
  rfl

theorem copyLoop_ok (src dst : ArrayPtr α) (n : Nat) (hs : n ≤ src.length)
    (hd : n ≤ dst.length) :
    copyLoop src n dst = .ok (src.take n ++ dst.drop n) := by
  induction n with
  | zero => simp [copyLoop]
  | succ n ih =>
    have hn : n < src.length := hs
    have hlen : (src.take n).length = n := by simp; omega
    have hw := write_snoc (src.take n) dst (src.get ⟨n, hn⟩) (by rw [hlen]; omega)
    rw [hlen] at hw
    rw [copyLoop, ih (by omega) (by omega), ok_bind, read_ok src n hn, ok_bind, hw]
    congr 2
    rw [List.take_succ, List.getElem?_eq_getElem hn]
    rfl

theorem fillLoop_ok (value : α) (a : ArrayPtr α) (n : Nat) (hn : n ≤ a.length) :
    fillLoop value n a = .ok (List.replicate n value ++ a.drop n) := by
  induction n with
  | zero => simp [fillLoop]
  | succ n ih =>
    have hw := write_snoc (List.replicate n value) a value (by simp; omega)
    rw [List.length_replicate] at hw
    rw [fillLoop, ih (by omega), ok_bind, hw]
    congr 2
    rw [List.replicate_succ']

theorem resizeLoop_ok [Inhabited α] (items array : ArrayPtr α) (size n : Nat)
    (hs : size ≤ items.length) (hn : n ≤ array.length) :
    resizeLoop items size n array
      = .ok (((items.take size).take n ++ List.replicate (n - size) default)
              ++ array.drop n) := by
  induction n with
  | zero => simp [resizeLoop]
  | succ n ih =>
    have hlen : ((items.take size).take n ++ List.replicate (n - size) (default : α)).length
        = n := by
      simp; omega
    rw [resizeLoop, ih (by omega), ok_bind]
    by_cases hlt : n < size
    · have hni : n < items.length := by omega
      have hw := write_snoc
        ((items.take size).take n ++ List.replicate (n - size) (default : α)) array
        (items.get ⟨n, hni⟩) (by rw [hlen]; omega)
      rw [hlen] at hw
      rw [if_pos hlt, read_ok items n hni, ok_bind]
      dsimp only
      rw [hw]
      congr 2
      have h0 : n - size = 0 := by omega
      have h1 : n + 1 - size = 0 := by omega
      have hts : n < (items.take size).length := by simp; omega
      rw [h0, h1, List.take_succ, List.getElem?_eq_getElem hts]
      simp
    · have hw := write_snoc
        ((items.take size).take n ++ List.replicate (n - size) (default : α)) array
        default (by rw [hlen]; omega)
      rw [hlen] at hw
      rw [if_neg hlt, pure_eq_ok, ok_bind]
      dsimp only
      rw [hw]
      congr 2
      have h1 : n + 1 - size = (n - size) + 1 := by omega
      have ht : ∀ m, size ≤ m → (items.take size).take m = items.take size := by
        intro m hm
        apply List.take_of_length_le
        simp; omega
      rw [h1, List.replicate_succ', ht n (by omega), ht (n + 1) (by omega)]
      simp

theorem length_alloc [Inhabited α] (n : Nat) : (ArrayPtr.alloc n : ArrayPtr α).length = n := by
  simp [ArrayPtr.alloc]

theorem length_elements (v : SimpleVector α) (h : v.size_ ≤ v.items_.length) :
    v.elements.length = v.size_ := by
  simp [elements]; omega

theorem write_at_size (v : SimpleVector α) (d : ArrayPtr α) (x : α)
    (h : v.size_ ≤ v.items_.length) (hd : v.size_ < d.length) :
    ArrayPtr.write (v.items_.take v.size_ ++ d.drop v.size_) v.size_ x
      = .ok ((v.elements ++ [x]) ++ d.drop (v.size_ + 1)) := by
  have hw := write_snoc v.elements d x (by rw [length_elements v h]; exact hd)
  rw [length_elements v h] at hw
  exact hw

theorem getElem?_snoc_mid (xs rest : List α) (x : α) :
    ((xs ++ [x]) ++ rest)[xs.length]? = some x := by
  rw [List.append_assoc, List.getElem?_append_right (Nat.le_refl _)]
  simp

theorem getElem?_lt_front (xs ys rest : List α) (i : Nat) (h : i < xs.length) :
    ((xs ++ ys) ++ rest)[i]? = xs[i]? := by
  rw [List.append_assoc, List.getElem?_append_left h]

theorem getElem?_elements (v : SimpleVector α) (i : Nat) (h : i < v.size_) :
    v.elements[i]? = v.items_[i]? := by
  simp [elements, List.getElem?_take, h]

theorem Arg_read_value (x : α) (items : ArrayPtr α) (released : Bool) :
    Arg.read (Arg.value x) items released = .ok x := rfl

theorem PushBack_eq [Inhabited α] (v : SimpleVector α) (item : α) (hwf : v.WellFormed) :
    PushBack v (Arg.value item) = .ok
      { items_ := (v.elements ++ [item]) ++
          (if v.size_ = v.capacity_
            then (ArrayPtr.alloc (max (v.size_ + 1) (2 * v.capacity_)) : ArrayPtr α)
            else v.items_).drop (v.size_ + 1),
        capacity_ := if v.size_ = v.capacity_ then max (v.size_ + 1) (2 * v.capacity_)
          else v.capacity_,
        size_ := v.size_ + 1 } := by
  obtain ⟨h1, h2⟩ := hwf
  have hsl : v.size_ ≤ v.items_.length := by omega
  unfold PushBack
  by_cases hc : v.size_ = v.capacity_
  · rw [if_pos hc, if_pos hc, if_pos hc, IncreaseCapacity,
      copyLoop_ok _ _ _ hsl (by rw [length_alloc]; omega)]
    simp only [ok_bind, pure_eq_ok, Arg_read_value]
    rw [write_at_size v _ item hsl (by rw [length_alloc]; omega)]
    rfl
  · rw [if_neg hc, if_neg hc, if_neg hc, pure_eq_ok, ok_bind]
    dsimp only
    rw [Arg_read_value, ok_bind]
    have hw := write_at_size v v.items_ item hsl (by omega)
    rw [List.take_append_drop] at hw
    rw [hw]
    rfl

theorem PushBackMove_eq [Inhabited α] (v : SimpleVector α) (item : α) (hwf : v.WellFormed) :
    PushBackMove v item = .ok
      { items_ := (v.elements ++ [item]) ++
          (ArrayPtr.alloc (if v.size_ = 0 then 1 else v.capacity_ * 2) : ArrayPtr α).drop
            (v.size_ + 1),
        capacity_ := max v.capacity_ (if v.size_ = 0 then 1 else v.capacity_ * 2),
        size_ := v.size_ + 1 } := by
  obtain ⟨h1, h2⟩ := hwf
  have hsl : v.size_ ≤ v.items_.length := by omega
  have hnc : v.size_ < (if v.size_ = 0 then 1 else v.capacity_ * 2) := by
    split <;> omega
  unfold PushBackMove
  simp only []
  rw [copyLoop_ok _ _ _ hsl (by rw [length_alloc]; omega), ok_bind]
  rw [write_at_size v _ item hsl (by rw [length_alloc]; exact hnc)]
  rfl

theorem take_succ_get (l : List α) (n : Nat) (h : n < l.length) :
    l.take (n + 1) = l.take n ++ [l.get ⟨n, h⟩] := by
  rw [List.take_succ, List.getElem?_eq_getElem h]
  rfl

theorem insertLoop_ok (items arr : ArrayPtr α) (pos : Nat) (value : α) (n : Nat)
    (hn : n ≤ items.length) (ha : n + 1 ≤ arr.length) :
    insertLoop items pos value n (0, 0, arr) = .ok
      (if pos < n then
        (n + 1, pos,
          (items.take pos ++ value :: (items.take n).drop pos) ++ arr.drop (n + 1))
       else (n, 0, items.take n ++ arr.drop n)) := by
  induction n with
  | zero => simp [insertLoop]
  | succ n ih =>
    have hni : n < items.length := hn
    have htn : (items.take n).length = n := by simp; omega
    rw [insertLoop, ih (by omega) (by omega), ok_bind]
    rcases Nat.lt_trichotomy pos n with hlt | heq | hgt
    · have hP : (items.take pos ++ value :: (items.take n).drop pos).length = n + 1 := by
        simp; omega
      have hw := write_snoc (items.take pos ++ value :: (items.take n).drop pos) arr
        (items.get ⟨n, hni⟩) (by rw [hP]; omega)
      rw [hP] at hw
      rw [if_pos hlt, if_pos (by omega : pos < n + 1)]
      dsimp only
      rw [if_neg (by omega : ¬ n = pos), pure_eq_ok, ok_bind]
      dsimp only
      rw [read_ok items n hni, ok_bind, hw, ok_bind, pure_eq_ok]
      congr 3
      rw [take_succ_get items n hni, List.drop_append_of_le_length (by rw [htn]; omega)]
      simp
    · subst heq
      have hw1 := write_snoc (items.take pos) arr value (by rw [htn]; omega)
      rw [htn] at hw1
      have hP : (items.take pos ++ [value]).length = pos + 1 := by
        simp; omega
      have hw2 := write_snoc (items.take pos ++ [value]) arr
        (items.get ⟨pos, hni⟩) (by rw [hP]; omega)
      rw [hP] at hw2
      rw [if_neg (Nat.lt_irrefl pos), if_pos (by omega : pos < pos + 1)]
      dsimp only
      rw [if_pos rfl, hw1, ok_bind, pure_eq_ok, ok_bind]
      dsimp only
      rw [read_ok items pos hni, ok_bind, hw2, ok_bind, pure_eq_ok]
      congr 3
      rw [take_succ_get items pos hni, List.drop_append_of_le_length (by rw [htn]),
        (show List.drop pos (items.take pos) = [] from
          List.drop_of_length_le (by rw [htn]))]
      simp
    · have hw := write_snoc (items.take n) arr (items.get ⟨n, hni⟩) (by rw [htn]; omega)
      rw [htn] at hw
      rw [if_neg (by omega : ¬ pos < n), if_neg (by omega : ¬ pos < n + 1)]
      dsimp only
      rw [if_neg (by omega : ¬ n = pos), pure_eq_ok, ok_bind]
      dsimp only
      rw [read_ok items n hni, ok_bind, hw, ok_bind, pure_eq_ok]
      congr 3
      rw [take_succ_get items n hni]

theorem insertBody_eq [Inhabited α] (v : SimpleVector α) (pos : Nat) (value : α)
    (hwf : v.WellFormed) (hpos : pos ≤ v.size_) :
    insertBody v pos value = .ok
      ({ items_ := (v.elements.take pos ++ value :: v.elements.drop pos) ++
            (ArrayPtr.alloc
              (if v.size_ = v.capacity_ then (if v.size_ = 0 then 1 else v.capacity_ * 2)
                else v.capacity_) : ArrayPtr α).drop (v.size_ + 1),
          capacity_ :=
            if v.size_ = v.capacity_ then (if v.size_ = 0 then 1 else v.capacity_ * 2)
            else v.capacity_,
          size_ := v.size_ + 1 }, pos) := by
  obtain ⟨h1, h2⟩ := hwf
  have hsl : v.size_ ≤ v.items_.length := by omega
  have hnc : v.size_ + 1 ≤
      (if v.size_ = v.capacity_ then (if v.size_ = 0 then 1 else v.capacity_ * 2)
        else v.capacity_) := by
    split
    · split <;> omega
    · omega
  generalize hncdef :
    (if v.size_ = v.capacity_ then (if v.size_ = 0 then 1 else v.capacity_ * 2)
      else v.capacity_) = nc at hnc
  have hxs : v.elements.length = v.size_ := length_elements v hsl
  unfold insertBody
  rw [if_neg (by omega : ¬ ¬ pos ≤ v.size_), hncdef]
  simp only []
  by_cases hz : v.size_ = 0
  · have hp0 : pos = 0 := by omega
    have hel : v.elements = [] := List.eq_nil_of_length_eq_zero (by omega)
    have hw := write_snoc ([] : List α) (ArrayPtr.alloc nc) value
      (by rw [length_alloc]; simp; omega)
    simp only [List.length_nil, List.drop_zero, List.nil_append] at hw
    rw [if_pos hz, hw, ok_bind, pure_eq_ok, ok_bind, pure_eq_ok]
    subst hp0
    simp [hel, hz]
  · rw [if_neg hz, insertLoop_ok _ _ _ _ _ hsl (by rw [length_alloc]; omega), ok_bind]
    by_cases hlt : pos < v.size_
    · rw [if_pos hlt]
      dsimp only
      rw [if_neg (by omega : ¬ pos = v.size_), pure_eq_ok, ok_bind, pure_eq_ok]
      congr 3
      simp only [elements, List.take_take]
      rw [Nat.min_eq_left hpos]
    · have hpe : pos = v.size_ := by omega
      rw [if_neg hlt]
      dsimp only
      rw [if_pos hpe, write_at_size v _ value hsl (by rw [length_alloc]; omega),
        ok_bind, pure_eq_ok, ok_bind, pure_eq_ok]
      subst hpe
      congr 3
      rw [(show v.elements.take v.size_ = v.elements from
            List.take_of_length_le (by omega)),
        (show v.elements.drop v.size_ = [] from List.drop_of_length_le (by omega))]

theorem read_mid (pre rest : List α) (x : α) (i : Nat) (hi : i = pre.length) :
    ArrayPtr.read (pre ++ x :: rest) i = .ok x := by
  subst hi
  rw [ArrayPtr.read, List.getElem?_append_right (Nat.le_refl _)]
  simp

theorem write_mid (pre rest : List α) (x y : α) (i : Nat) (hi : i = pre.length) :
    ArrayPtr.write (pre ++ x :: rest) i y = .ok (pre ++ y :: rest) := by
  subst hi
  rw [write_ok _ _ _ (by simp)]
  simp [List.set_append]

theorem eraseLoop_ok [MoveSem α] (mid : List α) :
    ∀ (pre tl : List α) (a : α) (fuel : Nat), mid.length ≤ fuel →
      eraseLoop fuel (pre ++ a :: (mid ++ tl)) pre.length (pre.length + mid.length)
        = .ok (pre ++ (mid ++ eraseResidue a mid :: tl)) := by
  induction mid with
  | nil =>
    intro pre tl a fuel _
    cases fuel <;> simp [eraseLoop, eraseResidue]
  | cons b mid ih =>
    intro pre tl a fuel hf
    cases fuel with
    | zero => simp at hf
    | succ fuel =>
      have hne : pre.length ≠ pre.length + (b :: mid).length := by simp
      have hr : ArrayPtr.read (pre ++ a :: (b :: mid ++ tl)) (pre.length + 1) = .ok b := by
        have := read_mid (pre ++ [a]) (mid ++ tl) b (pre.length + 1) (by simp)
        simpa using this
      have hw2 : ArrayPtr.write (pre ++ b :: (b :: mid ++ tl)) (pre.length + 1)
          (MoveSem.movedFrom b) = .ok ((pre ++ [b]) ++ MoveSem.movedFrom b :: (mid ++ tl)) := by
        have := write_mid (pre ++ [b]) (mid ++ tl) b (MoveSem.movedFrom b) (pre.length + 1)
          (by simp)
        simpa using this
      rw [eraseLoop, if_pos hne, hr, ok_bind, write_mid pre _ a b pre.length rfl, ok_bind,
        hw2, ok_bind]
      have hih := ih (pre ++ [b]) tl (MoveSem.movedFrom b) fuel (by simpa using hf)
      have hl : (pre ++ [b]).length = pre.length + 1 := by simp
      rw [hl] at hih
      have hlast : pre.length + (b :: mid).length = pre.length + 1 + mid.length := by
        simp; omega
      rw [hlast, hih]
      have hres : eraseResidue (MoveSem.movedFrom b) mid = eraseResidue a (b :: mid) := by
        cases mid with
        | nil => simp [eraseResidue]
        | cons c mid =>
          obtain ⟨z, hz⟩ : ∃ z, (c :: mid).getLast? = some z :=
            ⟨_, List.getLast?_eq_getLast _ (List.cons_ne_nil _ _)⟩
          simp [eraseResidue, List.getLast?_cons_cons, hz]
      rw [hres]
      simp

theorem items_split (v : SimpleVector α) (k : Nat) (hsl : v.size_ ≤ v.items_.length)
    (hk : k < v.size_) :
    v.items_ = v.elements.take k ++
      v.elements.get ⟨k, by rw [length_elements v hsl]; exact hk⟩ ::
        (v.elements.drop (k + 1) ++ v.items_.drop v.size_) := by
  have hxs : v.elements.length = v.size_ := length_elements v hsl
  have h1 : v.items_ = v.elements ++ v.items_.drop v.size_ := by
    simp [elements]
  have h2 : v.elements = v.elements.take k ++
      v.elements.get ⟨k, by rw [hxs]; exact hk⟩ :: v.elements.drop (k + 1) := by
    have h3 := List.take_append_drop k v.elements
    rw [List.drop_eq_getElem_cons (by rw [hxs]; exact hk)] at h3
    exact h3.symm
  calc v.items_ = v.elements ++ v.items_.drop v.size_ := h1
    _ = (v.elements.take k ++
          v.elements.get ⟨k, by rw [hxs]; exact hk⟩ :: v.elements.drop (k + 1))
          ++ v.items_.drop v.size_ :=
        congrArg (fun l => l ++ v.items_.drop v.size_) h2
    _ = _ := by rw [List.append_assoc, List.cons_append]

theorem Erase_eq [MoveSem α] (v : SimpleVector α) (k : Nat)
    (hsl : v.size_ ≤ v.items_.length) (hk : k < v.size_) :
    Erase v k = .ok
      ({ items_ := v.elements.take k ++ (v.elements.drop (k + 1) ++
            eraseResidue (v.elements.get ⟨k, by rw [length_elements v hsl]; exact hk⟩)
              (v.elements.drop (k + 1)) :: v.items_.drop v.size_),
          capacity_ := v.capacity_,
          size_ := v.size_ - 1 }, k) := by
  have hxs : v.elements.length = v.size_ := length_elements v hsl
  have hpre : (v.elements.take k).length = k := by simp; omega
  have hmid : (v.elements.drop (k + 1)).length = v.size_ - 1 - k := by simp; omega
  have hloop := eraseLoop_ok (v.elements.drop (k + 1)) (v.elements.take k)
    (v.items_.drop v.size_) (v.elements.get ⟨k, by rw [hxs]; exact hk⟩) v.size_
    (by rw [hmid]; omega)
  rw [← items_split v k hsl hk, hpre, hmid] at hloop
  have hlast : k + (v.size_ - 1 - k) = v.size_ - 1 := by omega
  rw [hlast] at hloop
  unfold Erase
  rw [if_neg (by omega : ¬ ¬ 0 < v.size_), if_neg (by omega : ¬ ¬ k ≤ v.size_)]
  simp only []
  rw [if_pos (by omega : k ≠ v.size_), hloop, ok_bind, pure_eq_ok]

theorem Erase_end_eq [MoveSem α] (v : SimpleVector α) (hpos : 0 < v.size_) :
    Erase v v.size_ = .ok
      ({ items_ := v.items_, capacity_ := v.capacity_, size_ := v.size_ - 1 }, v.size_) := by
  unfold Erase
  rw [if_neg (by omega : ¬ ¬ 0 < v.size_), if_neg (by omega : ¬ ¬ v.size_ ≤ v.size_)]
  simp only []
  rw [if_neg (by simp), pure_eq_ok, ok_bind, pure_eq_ok]

theorem appended_reads (v : SimpleVector α) (x : α) (rest : List α)
    (hsl : v.size_ ≤ v.items_.length) :
    ((v.elements ++ [x]) ++ rest)[v.size_ + 1 - 1]? = some x ∧
      ∀ i, i < v.size_ → ((v.elements ++ [x]) ++ rest)[i]? = v.items_[i]? := by
  have hxs : v.elements.length = v.size_ := length_elements v hsl
  constructor
  · have h := getElem?_snoc_mid v.elements rest x
    rw [hxs] at h
    rw [Nat.add_sub_cancel]
    exact h
  · intro i hi
    rw [getElem?_lt_front v.elements [x] rest i (by rw [hxs]; exact hi),
      getElem?_elements v i hi]

theorem Reserve_eq [Inhabited α] (v : SimpleVector α) (new_capacity : Nat)
    (hwf : v.WellFormed) (hgt : v.capacity_ < new_capacity) :
    Reserve v new_capacity = .ok
      { items_ := v.elements ++ (ArrayPtr.alloc new_capacity : ArrayPtr α).drop v.size_,
        capacity_ := new_capacity, size_ := v.size_ } := by
  obtain ⟨h1, h2⟩ := hwf
  unfold Reserve
  rw [if_neg (by omega : ¬ new_capacity ≤ v.capacity_),
    copyLoop_ok _ _ _ (by omega) (by rw [length_alloc]; omega), ok_bind, pure_eq_ok]
  rfl

theorem Resize_grow_eq [Inhabited α] (v : SimpleVector α) (new_size : Nat)
    (hwf : v.WellFormed) (hgt : v.capacity_ < new_size) :
    Resize v new_size = .ok
      { items_ := v.elements ++ List.replicate (new_size - v.size_) default,
        capacity_ := new_size, size_ := new_size } := by
  obtain ⟨h1, h2⟩ := hwf
  unfold Resize
  rw [if_neg (by omega : ¬ (new_size < v.size_ ∨ new_size ≤ v.capacity_)),
    if_pos (by omega : new_size > v.capacity_),
    resizeLoop_ok _ _ _ _ (by omega) (by rw [length_alloc]), ok_bind, pure_eq_ok]
  congr 2
  have ht : (v.items_.take v.size_).take new_size = v.items_.take v.size_ :=
    List.take_of_length_le (by simp; omega)
  have hd : (ArrayPtr.alloc new_size : ArrayPtr α).drop new_size = [] :=
    List.drop_of_length_le (by rw [length_alloc])
  rw [ht, hd, List.append_nil]
  rfl

theorem Resize_shrink_eq [Inhabited α] (v : SimpleVector α) (new_size : Nat)
    (hle : new_size < v.size_ ∨ new_size ≤ v.capacity_) :
    Resize v new_size = .ok
      { items_ := v.items_, capacity_ := v.capacity_, size_ := new_size } := by
  unfold Resize
  rw [if_pos hle]

theorem copy_eq [Inhabited α] (other : SimpleVector α)
    (hsl : other.size_ ≤ other.items_.length) :
    copy other = .ok
      { items_ := other.elements, capacity_ := other.capacity_, size_ := other.size_ } := by
  unfold copy
  rw [copyLoop_ok _ _ _ hsl (by rw [length_alloc]), ok_bind, pure_eq_ok]
  congr 2
  have hd : (ArrayPtr.alloc other.size_ : ArrayPtr α).drop other.size_ = [] :=
    List.drop_of_length_le (by rw [length_alloc])
  rw [hd, List.append_nil]
  rfl

theorem ofSizeValue_eq [Inhabited α] (size : Nat) (value : α) :
    ofSizeValue size value = .ok
      { items_ := List.replicate size value, capacity_ := size, size_ := size } := by
  unfold ofSizeValue
  rw [fillLoop_ok _ _ _ (by rw [length_alloc]), ok_bind, pure_eq_ok]
  congr 2
  have hd : (ArrayPtr.alloc size : ArrayPtr α).drop size = [] :=
    List.drop_of_length_le (by rw [length_alloc])
  rw [hd, List.append_nil]

theorem ofInitList_eq [Inhabited α] (init : List α) :
    ofInitList init = .ok
      { items_ := init, capacity_ := init.length, size_ := init.length } := by
  unfold ofInitList
  rw [copyLoop_ok _ _ _ (Nat.le_refl _) (by rw [length_alloc]), ok_bind, pure_eq_ok]
  congr 2
  have hd : (ArrayPtr.alloc init.length : ArrayPtr α).drop init.length = [] :=
    List.drop_of_length_le (by rw [length_alloc])
  rw [hd, List.append_nil, List.take_length]

theorem ofReserve_eq [Inhabited α] (r : ReserveProxyObj) :
    (ofReserve r : Except Fault (SimpleVector α)) = .ok
      { items_ := ArrayPtr.alloc r.capacity_, capacity_ := r.capacity_, size_ := 0 } := by
  unfold ofReserve Reserve ReserveProxyObj.ReserveCapasity
  by_cases h : r.capacity_ ≤ 0
  · have h0 : r.capacity_ = 0 := by omega
    simp [empty, h0, ArrayPtr.alloc]
  · simp [empty, h, copyLoop, ok_bind, pure_eq_ok]

/-! ## The claims -/

/-- With an argument that is an object outside the vector, both overloads of
`PushBack` on a well-formed vector return normally, increase `size_` by exactly
one, leave `capacity_` at least the new size, store the pushed value at index
`new size - 1` and leave every slot below the old size unchanged. -/
theorem PushBack_appends [Inhabited α] (v : SimpleVector α) (item : α)
    (hwf : v.WellFormed) :
    (∃ w, PushBack v (Arg.value item) = .ok w ∧ w.size_ = v.size_ + 1 ∧
        w.size_ ≤ w.capacity_ ∧ w.items_[w.size_ - 1]? = some item ∧
        ∀ i, i < v.size_ → w.items_[i]? = v.items_[i]?) ∧
    (∃ w, PushBackMove v item = .ok w ∧ w.size_ = v.size_ + 1 ∧ w.size_ ≤ w.capacity_ ∧
        w.items_[w.size_ - 1]? = some item ∧
        ∀ i, i < v.size_ → w.items_[i]? = v.items_[i]?) := by
  have hsl : v.size_ ≤ v.items_.length := by
    have := hwf.2
    have := hwf.1
    omega
  constructor
  · refine ⟨_, PushBack_eq v item hwf, rfl, ?_, ?_, ?_⟩
    · show v.size_ + 1 ≤ (if v.size_ = v.capacity_ then max (v.size_ + 1) (2 * v.capacity_)
        else v.capacity_)
      have := hwf.1
      split
      · exact Nat.le_max_left _ _
      · omega
    · exact (appended_reads v item _ hsl).1
    · exact (appended_reads v item _ hsl).2
  · refine ⟨_, PushBackMove_eq v item hwf, rfl, ?_, ?_, ?_⟩
    · show v.size_ + 1 ≤ max v.capacity_ (if v.size_ = 0 then 1 else v.capacity_ * 2)
      have := hwf.1
      split
      · have := Nat.le_max_right v.capacity_ 1
        omega
      · have := Nat.le_max_right v.capacity_ (v.capacity_ * 2)
        omega
    · exact (appended_reads v item _ hsl).1
    · exact (appended_reads v item _ hsl).2

/-- The previous result on the full vector `[1, 2]` with the outside value 7. -/
theorem PushBack_appends_witness :
    WellFormed (⟨[1, 2], 2, 2⟩ : SimpleVector Nat) ∧
    (∃ w, PushBack (⟨[1, 2], 2, 2⟩ : SimpleVector Nat) (Arg.value 7) = .ok w ∧
        w.size_ = 3 ∧ w.size_ ≤ w.capacity_ ∧ w.items_[w.size_ - 1]? = some 7 ∧
        ∀ i, i < 2 → w.items_[i]? = ([1, 2] : List Nat)[i]?) :=
  ⟨⟨by decide, rfl⟩, (PushBack_appends ⟨[1, 2], 2, 2⟩ 7 ⟨by decide, rfl⟩).1⟩

/-- On a full well-formed vector `PushBack(const Type&)` never returns normally
when its argument is an element of the vector itself: the element is read
after the growth step has released the block that holds it. -/
theorem PushBack_slot_full [Inhabited α] (v : SimpleVector α) (i : Nat)
    (hwf : v.WellFormed) (hfull : v.size_ = v.capacity_) :
    PushBack v (Arg.slot i) = .error .undefinedBehaviour := by
  have hsl : v.size_ ≤ v.items_.length := by
    have := hwf.2
    omega
  unfold PushBack
  rw [if_pos hfull, IncreaseCapacity, copyLoop_ok _ _ _ hsl (by rw [length_alloc]; omega)]
  simp only [ok_bind, pure_eq_ok, Arg.read, hfull, decide_True, if_true]
  rfl

/-- C1 (violated by the code): on the full well-formed vector `[1, 2]` the
call `v.PushBack(v[0])` reads its argument after `IncreaseCapacity` released
the block holding it, so it does not return normally; the same value passed as
an outside object is appended, and so is the own element when the vector is
not full. -/
theorem PushBack_own_element_dangling :
    WellFormed (⟨[1, 2], 2, 2⟩ : SimpleVector Nat) ∧
    PushBack (⟨[1, 2], 2, 2⟩ : SimpleVector Nat) (Arg.slot 0)
      = .error .undefinedBehaviour ∧
    PushBack (⟨[1, 2], 2, 2⟩ : SimpleVector Nat) (Arg.value 1)
      = .ok ⟨[1, 2, 1, 0], 4, 3⟩ ∧
    PushBack (⟨[1, 2, 0], 3, 2⟩ : SimpleVector Nat) (Arg.slot 0)
      = .ok ⟨[1, 2, 1], 3, 3⟩ :=
  ⟨⟨by decide, rfl⟩, rfl, rfl, rfl⟩

/-- C3: on a well-formed vector, `Erase` at offset
`k < size_` returns normally with a vector of size `size_ - 1` whose live
elements are the old ones with the `k`-th removed, with `capacity_` unchanged;
the returned iterator is `begin() + k`, and for `k < size_ - 1` that slot holds
the element that followed the erased one. -/
theorem Erase_spec [MoveSem α] (v : SimpleVector α) (k : Nat)
    (hwf : v.WellFormed) (hk : k < v.size_) :
    ∃ w, Erase v k = .ok (w, k) ∧ w.size_ = v.size_ - 1 ∧
      w.elements = v.elements.eraseIdx k ∧ w.capacity_ = v.capacity_ ∧
      (k < v.size_ - 1 → w.items_[k]? = v.items_[k + 1]?) := by
  have hsl : v.size_ ≤ v.items_.length := by
    have := hwf.2
    have := hwf.1
    omega
  have hxs : v.elements.length = v.size_ := length_elements v hsl
  have hpre : (v.elements.take k).length = k := by simp; omega
  have hmid : (v.elements.drop (k + 1)).length = v.size_ - 1 - k := by simp; omega
  refine ⟨_, Erase_eq v k hsl hk, rfl, ?_, rfl, ?_⟩
  · show List.take (v.size_ - 1) (v.elements.take k ++ (v.elements.drop (k + 1) ++ _))
      = v.elements.eraseIdx k
    rw [List.eraseIdx_eq_take_drop_succ, ← List.append_assoc]
    have hl : (v.elements.take k ++ v.elements.drop (k + 1)).length = v.size_ - 1 := by
      rw [List.length_append, hpre, hmid]; omega
    rw [← hl, List.take_left]
  · intro hk1
    show (v.elements.take k ++ (v.elements.drop (k + 1) ++ _))[k]? = v.items_[k + 1]?
    rw [List.getElem?_append_right (by rw [hpre]), hpre, Nat.sub_self,
      List.getElem?_append_left (by rw [hmid]; omega), List.getElem?_drop,
      getElem?_elements v _ (by omega)]

/-- Instance of C3: erasing offset 1 of `[1, 2, 3]` gives `[1, 3]`, and the
returned slot holds 3. -/
theorem Erase_spec_witness :
    ∃ w, Erase (⟨[1, 2, 3], 3, 3⟩ : SimpleVector Nat) 1 = .ok (w, 1) ∧ w.size_ = 2 ∧
      w.elements = [1, 3] ∧ w.capacity_ = 3 ∧ ((1 : Nat) < 2 → w.items_[1]? = some 3) :=
  Erase_spec (⟨[1, 2, 3], 3, 3⟩ : SimpleVector Nat) 1 ⟨by decide, rfl⟩ (by decide)

/-- For a vector whose first `size_` slots exist, `At(index)` fails if and
only if `index ≥ size_`, the failure being the out-of-range error; for
`index < size_` it returns the live element at that index.  In particular
`At(size_)` fails and, for `size_ > 0`, `At(size_ - 1)` succeeds.  `At` only
reads: it produces no new vector state. -/
theorem At_spec (v : SimpleVector α) (index : Nat) (hlive : v.size_ ≤ v.items_.length) :
    ((∃ e, At v index = .error e) ↔ v.size_ ≤ index) ∧
    (At v index = .error .outOfRange ↔ v.size_ ≤ index) ∧
    (index < v.size_ → ∃ a, v.elements[index]? = some a ∧ At v index = .ok a) ∧
    At v v.size_ = .error .outOfRange ∧
    (0 < v.size_ → ∃ a, v.elements[v.size_ - 1]? = some a ∧ At v (v.size_ - 1) = .ok a) := by
  have hfail : ∀ i, v.size_ ≤ i → At v i = .error .outOfRange := by
    intro i hi
    unfold At
    rw [if_pos hi]
  have hok : ∀ i, i < v.size_ → ∃ a, v.elements[i]? = some a ∧ At v i = .ok a := by
    intro i hi
    have hil : i < v.items_.length := by omega
    refine ⟨v.items_.get ⟨i, hil⟩, ?_, ?_⟩
    · rw [getElem?_elements v i hi, List.getElem?_eq_getElem hil]
      rfl
    · unfold At
      rw [if_neg (by omega : ¬ i ≥ v.size_), read_ok v.items_ i hil]
  refine ⟨⟨?_, fun h => ⟨_, hfail index h⟩⟩, ⟨?_, hfail index⟩, hok index,
    hfail v.size_ (Nat.le_refl _), fun h => hok (v.size_ - 1) (by omega)⟩
  · rintro ⟨e, he⟩
    by_contra hlt
    obtain ⟨a, _, ha⟩ := hok index (by omega)
    rw [ha] at he
    cases he
  · intro he
    by_contra hlt
    obtain ⟨a, _, ha⟩ := hok index (by omega)
    rw [ha] at he
    cases he

/-- The previous result on `[1, 2, 3]` with size 3: `At(3)` fails, `At(2)`
succeeds. -/
theorem At_spec_witness :
    At (⟨[1, 2, 3], 3, 3⟩ : SimpleVector Nat) 3 = .error .outOfRange ∧
    ((0 : Nat) < 3 → ∃ a, ([1, 2, 3] : List Nat)[2]? = some a ∧
      At (⟨[1, 2, 3], 3, 3⟩ : SimpleVector Nat) 2 = .ok a) :=
  (At_spec (⟨[1, 2, 3], 3, 3⟩ : SimpleVector Nat) 3 (by decide)).2.2.2

/-- C4 (violated by the code): `Reserve(2)`, `PushBack(one)`, copy construction
and `Resize(2)`, each inside its precondition, give a vector of size 2 that
owns a block of one slot, because the copy constructor sized the block by the
source's size while taking over its capacity.  On that vector `At(1)`, with
`1 < size_`, passes the range check and reads outside the block instead of
returning a live element. -/
theorem At_reads_past_copied_block :
    (Reserve (empty : SimpleVector Nat) 2 >>= fun v =>
      PushBack v (Arg.value 1) >>= fun s => copy s >>= fun c => Resize c 2)
      = .ok ⟨[1], 2, 2⟩ ∧
    copy (⟨[1, 0], 2, 1⟩ : SimpleVector Nat) = .ok ⟨[1], 2, 1⟩ ∧
    Resize (⟨[1], 2, 1⟩ : SimpleVector Nat) 2 = .ok ⟨[1], 2, 2⟩ ∧
    At (⟨[1], 2, 2⟩ : SimpleVector Nat) 1 = .error .undefinedBehaviour ∧
    At (⟨[1], 2, 2⟩ : SimpleVector Nat) 0 = .ok 1 ∧
    At (⟨[1], 2, 2⟩ : SimpleVector Nat) 2 = .error .outOfRange :=
  ⟨rfl, rfl, rfl, rfl, rfl, rfl⟩

/-- C5: on a well-formed vector, `Resize(n)` with `n > capacity_` returns
normally with `size_ = capacity_ = n`, the old live elements at the indices
below the old size and the default value at every index from the old size up
to `n`; with `n ≤ size_` it returns normally with `size_ = n`, `capacity_`
unchanged and the first `n` elements unchanged. -/
theorem Resize_spec [Inhabited α] (v : SimpleVector α) (n : Nat) (hwf : v.WellFormed) :
    (v.capacity_ < n → ∃ w, Resize v n = .ok w ∧ w.size_ = n ∧ w.capacity_ = n ∧
        (∀ i, i < v.size_ → w.items_[i]? = v.items_[i]?) ∧
        (∀ i, v.size_ ≤ i → i < n → w.items_[i]? = some default)) ∧
    (n ≤ v.size_ → ∃ w, Resize v n = .ok w ∧ w.size_ = n ∧ w.capacity_ = v.capacity_ ∧
        w.elements = v.elements.take n ∧
        (∀ i, i < n → w.items_[i]? = v.items_[i]?)) := by
  have hsl : v.size_ ≤ v.items_.length := by
    have := hwf.2
    have := hwf.1
    omega
  have hxs : v.elements.length = v.size_ := length_elements v hsl
  constructor
  · intro hgt
    refine ⟨_, Resize_grow_eq v n hwf hgt, rfl, rfl, ?_, ?_⟩
    · intro i hi
      show (v.elements ++ List.replicate (n - v.size_) default)[i]? = v.items_[i]?
      rw [List.getElem?_append_left (by rw [hxs]; exact hi), getElem?_elements v i hi]
    · intro i h1 h2
      show (v.elements ++ List.replicate (n - v.size_) default)[i]? = some default
      rw [List.getElem?_append_right (by rw [hxs]; exact h1), hxs,
        List.getElem?_replicate, if_pos (by omega)]
  · intro hle
    refine ⟨_, Resize_shrink_eq v n (by have := hwf.1; omega), rfl, rfl, ?_, ?_⟩
    · show v.items_.take n = (v.items_.take v.size_).take n
      rw [List.take_take, Nat.min_eq_left hle]
    · intro i _
      rfl

/-- Instance of C5 on `[1, 2, 3]`: growing to 5 and shrinking to 1. -/
theorem Resize_spec_witness :
    (∃ w, Resize (⟨[1, 2, 3], 3, 3⟩ : SimpleVector Nat) 5 = .ok w ∧ w.size_ = 5 ∧
        w.capacity_ = 5 ∧ (∀ i, i < 3 → w.items_[i]? = ([1, 2, 3] : List Nat)[i]?) ∧
        (∀ i, 3 ≤ i → i < 5 → w.items_[i]? = some default)) ∧
    (∃ w, Resize (⟨[1, 2, 3], 3, 3⟩ : SimpleVector Nat) 1 = .ok w ∧ w.size_ = 1 ∧
        w.capacity_ = 3 ∧ w.elements = [1] ∧
        (∀ i, i < 1 → w.items_[i]? = ([1, 2, 3] : List Nat)[i]?)) :=
  ⟨(Resize_spec (⟨[1, 2, 3], 3, 3⟩ : SimpleVector Nat) 5 ⟨by decide, rfl⟩).1 (by decide),
   (Resize_spec (⟨[1, 2, 3], 3, 3⟩ : SimpleVector Nat) 1 ⟨by decide, rfl⟩).2 (by decide)⟩

/-- C6: on a well-formed vector, `Reserve(newCap)` with `newCap ≤ capacity_`
returns the vector unchanged; otherwise it returns normally with `capacity_`
exactly `newCap`, a block of exactly `newCap` slots, `size_` unchanged and the
live elements preserved in order and value. -/
theorem Reserve_spec [Inhabited α] (v : SimpleVector α) (newCap : Nat)
    (hwf : v.WellFormed) :
    (newCap ≤ v.capacity_ → Reserve v newCap = .ok v) ∧
    (v.capacity_ < newCap → ∃ w, Reserve v newCap = .ok w ∧ w.capacity_ = newCap ∧
        w.items_.length = newCap ∧ w.size_ = v.size_ ∧ w.elements = v.elements) := by
  have hsl : v.size_ ≤ v.items_.length := by
    have := hwf.2
    have := hwf.1
    omega
  have hxs : v.elements.length = v.size_ := length_elements v hsl
  constructor
  · intro hle
    unfold Reserve
    rw [if_pos hle]
  · intro hgt
    refine ⟨_, Reserve_eq v newCap hwf hgt, rfl, ?_, rfl, ?_⟩
    · show (v.elements ++ (ArrayPtr.alloc newCap : ArrayPtr α).drop v.size_).length = newCap
      have := hwf.1
      rw [List.length_append, hxs, List.length_drop, length_alloc]
      omega
    · show (v.elements ++ (ArrayPtr.alloc newCap : ArrayPtr α).drop v.size_).take v.size_
        = v.elements
      rw [← hxs, List.take_left]

/-- Instance of C6 on `[1, 2, 0]` with size 2: `Reserve(2)` and `Reserve(5)`. -/
theorem Reserve_spec_witness :
    Reserve (⟨[1, 2, 0], 3, 2⟩ : SimpleVector Nat) 2 = .ok ⟨[1, 2, 0], 3, 2⟩ ∧
    (∃ w, Reserve (⟨[1, 2, 0], 3, 2⟩ : SimpleVector Nat) 5 = .ok w ∧ w.capacity_ = 5 ∧
        w.items_.length = 5 ∧ w.size_ = 2 ∧ w.elements = [1, 2]) :=
  ⟨(Reserve_spec (⟨[1, 2, 0], 3, 2⟩ : SimpleVector Nat) 2 ⟨by decide, rfl⟩).1 (by decide),
   (Reserve_spec (⟨[1, 2, 0], 3, 2⟩ : SimpleVector Nat) 5 ⟨by decide, rfl⟩).2 (by decide)⟩

/-- C7 (violated by the code): the source `[1]` with capacity 2, obtained by
`Reserve(2)` and `PushBack(1)` on an empty vector, is well formed; its copy
owns a block of one slot while reporting capacity 2, so `PushBack(5)` on the
copy skips the growth step and writes slot 1, outside the copy's block. -/
theorem copy_PushBack_overrun :
    (Reserve (empty : SimpleVector Nat) 2 >>= fun v => PushBack v (Arg.value 1))
      = .ok ⟨[1, 0], 2, 1⟩ ∧
    WellFormed (⟨[1, 0], 2, 1⟩ : SimpleVector Nat) ∧
    copy (⟨[1, 0], 2, 1⟩ : SimpleVector Nat) = .ok ⟨[1], 2, 1⟩ ∧
    (copy (⟨[1, 0], 2, 1⟩ : SimpleVector Nat) >>= fun c => PushBack c (Arg.value 5))
      = .error .undefinedBehaviour :=
  ⟨rfl, ⟨by decide, rfl⟩, rfl, rfl⟩

/-- C8: move construction hands the new vector the source's size, capacity and
block (hence its elements, in order) and leaves the source with size 0,
capacity 0 and no block, which is the well-formed empty state. -/
theorem move_spec (src : SimpleVector α) :
    (move src).1.size_ = src.size_ ∧ (move src).1.capacity_ = src.capacity_ ∧
    (move src).1.items_ = src.items_ ∧ (move src).1.elements = src.elements ∧
    (move src).2.size_ = 0 ∧ (move src).2.capacity_ = 0 ∧ (move src).2.items_ = [] ∧
    (move src).2 = empty ∧ (move src).2.WellFormed :=
  ⟨rfl, rfl, rfl, rfl, rfl, rfl, rfl, rfl, ⟨Nat.le_refl _, rfl⟩⟩

/-- Every constructor other than the copy constructor returns normally with a
well-formed vector; the move constructor does so for a well-formed source. -/
theorem constructors_wellFormed [Inhabited α] (size : Nat) (value : α) (init : List α)
    (r : ReserveProxyObj) (src : SimpleVector α) (hsrc : src.WellFormed) :
    (empty : SimpleVector α).WellFormed ∧
    (∃ w, ofSizeValue size value = .ok w ∧ w.WellFormed) ∧
    (∃ w : SimpleVector α, ofSize size = .ok w ∧ w.WellFormed) ∧
    (∃ w, ofInitList init = .ok w ∧ w.WellFormed) ∧
    (∃ w : SimpleVector α, ofReserve r = .ok w ∧ w.WellFormed) ∧
    (move src).1.WellFormed ∧ (move src).2.WellFormed :=
  ⟨⟨Nat.le_refl _, rfl⟩,
   ⟨_, ofSizeValue_eq size value, Nat.le_refl _, List.length_replicate _ _⟩,
   ⟨_, ofSizeValue_eq size default, Nat.le_refl _, List.length_replicate _ _⟩,
   ⟨_, ofInitList_eq init, Nat.le_refl _, rfl⟩,
   ⟨_, ofReserve_eq r, Nat.zero_le _, length_alloc _⟩,
   hsrc, ⟨Nat.le_refl _, rfl⟩⟩

/-- C9 (violated by the code): the copy constructor applied to the well-formed
reserved-but-empty vector built by `SimpleVector(Reserve(2))` returns a vector
that reports capacity 2 while owning a block of no slots, so invariant I2
fails for the copy. -/
theorem copy_breaks_I2 :
    (ofReserve (SV.Reserve 2) : Except Fault (SimpleVector Nat)) = .ok ⟨[0, 0], 2, 0⟩ ∧
    WellFormed (⟨[0, 0], 2, 0⟩ : SimpleVector Nat) ∧
    copy (⟨[0, 0], 2, 0⟩ : SimpleVector Nat) = .ok ⟨[], 2, 0⟩ ∧
    ¬ WellFormed (⟨[], 2, 0⟩ : SimpleVector Nat) :=
  ⟨rfl, ⟨by decide, rfl⟩, rfl, fun h => absurd h.2 (by decide)⟩

/-- On a well-formed vector `PushBack(const Type&)` leaves the capacity
`max(size + 1, 2 * capacity)` when the vector was full and unchanged otherwise;
`PushBack(Type&&)` agrees with that when the vector was full. -/
theorem PushBack_capacity [Inhabited α] (v : SimpleVector α) (item : α)
    (hwf : v.WellFormed) :
    (∃ w, PushBack v (Arg.value item) = .ok w ∧
      w.capacity_ = if v.size_ = v.capacity_ then max (v.size_ + 1) (2 * v.capacity_)
        else v.capacity_) ∧
    (v.size_ = v.capacity_ → ∃ w, PushBackMove v item = .ok w ∧
      w.capacity_ = max (v.size_ + 1) (2 * v.capacity_)) := by
  refine ⟨⟨_, PushBack_eq v item hwf, rfl⟩, fun hfull => ⟨_, PushBackMove_eq v item hwf, ?_⟩⟩
  show max v.capacity_ (if v.size_ = 0 then 1 else v.capacity_ * 2)
    = max (v.size_ + 1) (2 * v.capacity_)
  split <;> omega

/-- C10 (violated by the code): on the well-formed vector `[1]` with capacity 2
the overload `PushBack(Type&&)` reallocates and leaves capacity 4, while
`size_ ≠ capacity_` held before the call and `PushBack(const Type&)` leaves the
capacity at 2. -/
theorem PushBackMove_doubles_when_not_full :
    WellFormed (⟨[1, 0], 2, 1⟩ : SimpleVector Nat) ∧
    PushBack (⟨[1, 0], 2, 1⟩ : SimpleVector Nat) (Arg.value 7) = .ok ⟨[1, 7], 2, 2⟩ ∧
    PushBackMove (⟨[1, 0], 2, 1⟩ : SimpleVector Nat) 7 = .ok ⟨[1, 7, 0, 0], 4, 2⟩ :=
  ⟨⟨by decide, rfl⟩, rfl, rfl⟩

/-! ## Results about the comparison algorithms -/

theorem read_of_drop (a : ArrayPtr α) (i : Nat) (x : α) (t : List α)
    (h : a.drop i = x :: t) : ArrayPtr.read a i = .ok x ∧ a.drop (i + 1) = t := by
  constructor
  · have h0 : (a.drop i)[0]? = some x := by rw [h]; simp
    rw [List.getElem?_drop, Nat.add_zero] at h0
    rw [ArrayPtr.read, h0]
  · have h1 : (a.drop i).drop 1 = t := by rw [h]; rfl
    rw [List.drop_drop] at h1
    exact h1

theorem items_eq_elements_append (v : SimpleVector α) :
    v.items_.drop 0 = v.elements ++ v.items_.drop v.size_ := by
  simp [elements]

theorem equalLoop_ok [DecidableEq α] (a b : ArrayPtr α) (la : List α) :
    ∀ (lb ra rb : List α) (i : Nat), la.length = lb.length →
      a.drop i = la ++ ra → b.drop i = lb ++ rb →
      equalLoop a b la.length i = .ok (decide (la = lb)) := by
  induction la with
  | nil =>
    intro lb ra rb i hl _ _
    have hb : lb = [] := List.eq_nil_of_length_eq_zero hl.symm
    subst hb
    simp [equalLoop]
  | cons x la ih =>
    intro lb ra rb i hl ha hb
    cases lb with
    | nil => simp at hl
    | cons y lb =>
      obtain ⟨hra, hda⟩ := read_of_drop a i x (la ++ ra) ha
      obtain ⟨hrb, hdb⟩ := read_of_drop b i y (lb ++ rb) hb
      have hl2 : la.length = lb.length := by simpa using hl
      rw [List.length_cons, equalLoop, hra, ok_bind, hrb, ok_bind]
      by_cases hxy : x = y
      · rw [if_neg (by simpa using hxy), ih lb ra rb (i + 1) hl2 hda hdb]
        simp [hxy]
      · rw [if_pos hxy, pure_eq_ok]
        simp [hxy]

theorem lexicographicalCompareLoop_ok [LT α] [DecidableRel (fun x y : α => x < y)]
    (a b : ArrayPtr α) (la : List α) :
    ∀ (lb ra rb : List α) (i : Nat), a.drop i = la ++ ra → b.drop i = lb ++ rb →
      lexicographicalCompareLoop a b la.length lb.length i = .ok (lexList la lb) := by
  induction la with
  | nil =>
    intro lb ra rb i _ _
    cases lb <;> simp [lexicographicalCompareLoop, lexList]
  | cons x la ih =>
    intro lb ra rb i ha hb
    cases lb with
    | nil => simp [lexicographicalCompareLoop, lexList]
    | cons y lb =>
      obtain ⟨hra, hda⟩ := read_of_drop a i x (la ++ ra) ha
      obtain ⟨hrb, hdb⟩ := read_of_drop b i y (lb ++ rb) hb
      rw [List.length_cons, List.length_cons, lexicographicalCompareLoop, hra, ok_bind,
        hrb, ok_bind]
      rw [lexList]
      by_cases h1 : x < y
      · rw [if_pos h1, if_pos h1, pure_eq_ok]
      · rw [if_neg h1, if_neg h1]
        by_cases h2 : y < x
        · rw [if_pos h2, if_pos h2, pure_eq_ok]
        · rw [if_neg h2, if_neg h2, ih lb ra rb (i + 1) hda hdb]

theorem opEq_eq [DecidableEq α] (a b : SimpleVector α)
    (ha : a.size_ ≤ a.items_.length) (hb : b.size_ ≤ b.items_.length) :
    opEq a b = .ok (decide (a.size_ = b.size_ ∧ a.elements = b.elements)) := by
  unfold opEq GetSize
  by_cases hs : a.size_ = b.size_
  · have hl : a.elements.length = b.elements.length := by
      rw [length_elements a ha, length_elements b hb, hs]
    have h := equalLoop_ok a.items_ b.items_ a.elements b.elements _ _ 0 hl
      (items_eq_elements_append a) (items_eq_elements_append b)
    rw [length_elements a ha] at h
    rw [if_pos hs, h]
    simp [hs]
  · rw [if_neg hs]
    simp [hs]

theorem opLt_eq [LT α] [DecidableRel (fun x y : α => x < y)] (a b : SimpleVector α)
    (ha : a.size_ ≤ a.items_.length) (hb : b.size_ ≤ b.items_.length) :
    opLt a b = .ok (lexList a.elements b.elements) := by
  have h := lexicographicalCompareLoop_ok a.items_ b.items_ a.elements b.elements _ _ 0
    (items_eq_elements_append a) (items_eq_elements_append b)
  rw [length_elements a ha, length_elements b hb] at h
  exact h

theorem lexList_iff_lex [LinearOrder α] (la : List α) :
    ∀ lb : List α, lexList la lb = true ↔ List.Lex (fun x y : α => x < y) la lb := by
  induction la with
  | nil =>
    intro lb
    cases lb with
    | nil => simp [lexList, List.Lex.not_nil_right]
    | cons y lb => simp [lexList, List.Lex.nil]
  | cons x la ih =>
    intro lb
    cases lb with
    | nil => simp [lexList, List.Lex.not_nil_right]
    | cons y lb =>
      rw [lexList]
      rcases lt_trichotomy x y with h | h | h
      · rw [if_pos h]
        exact ⟨fun _ => List.Lex.rel h, fun _ => rfl⟩
      · subst h
        rw [if_neg (lt_irrefl x), if_neg (lt_irrefl x), ih lb]
        exact ⟨List.Lex.cons, fun hl => by
          cases hl with
          | cons h => exact h
          | rel h => exact absurd h (lt_irrefl x)⟩
      · rw [if_neg (not_lt_of_gt h), if_pos h]
        constructor
        · intro hf
          cases hf
        · intro hl
          cases hl with
          | cons h2 => exact absurd h (lt_irrefl x)
          | rel h2 => exact absurd h2 (not_lt_of_gt h)

theorem lexList_trichotomy [LinearOrder α] (la : List α) :
    ∀ lb : List α,
      (lexList la lb = true ∧ la ≠ lb ∧ lexList lb la = false) ∨
      (lexList la lb = false ∧ la = lb ∧ lexList lb la = false) ∨
      (lexList la lb = false ∧ la ≠ lb ∧ lexList lb la = true) := by
  induction la with
  | nil =>
    intro lb
    cases lb <;> simp [lexList]
  | cons x la ih =>
    intro lb
    cases lb with
    | nil => simp [lexList]
    | cons y lb =>
      rw [lexList, lexList]
      rcases lt_trichotomy x y with h | h | h
      · rw [if_pos h, if_neg (not_lt_of_gt h), if_pos h]
        left
        exact ⟨rfl, fun he => absurd (List.cons.inj he).1 (ne_of_lt h), rfl⟩
      · subst h
        simp only [lt_irrefl x, if_false]
        rcases ih lb with ⟨h1, h2, h3⟩ | ⟨h1, h2, h3⟩ | ⟨h1, h2, h3⟩
        · left
          exact ⟨h1, fun he => h2 (List.cons.inj he).2, h3⟩
        · right; left
          exact ⟨h1, by rw [h2], h3⟩
        · right; right
          exact ⟨h1, fun he => h2 (List.cons.inj he).2, h3⟩
      · rw [if_neg (not_lt_of_gt h), if_pos h, if_pos h]
        right; right
        exact ⟨rfl, fun he => absurd (List.cons.inj he).1 (ne_of_gt h), rfl⟩

/-! ## Well-formedness of the results -/

theorem size_le_length (v : SimpleVector α) (hwf : v.WellFormed) :
    v.size_ ≤ v.items_.length := by
  have := hwf.1
  have := hwf.2
  omega

theorem PushBack_facts [Inhabited α] (v : SimpleVector α) (item : α) (hwf : v.WellFormed) :
    ∃ w, PushBack v (Arg.value item) = .ok w ∧ w.WellFormed ∧ w.size_ = v.size_ + 1 ∧
      w.elements = v.elements ++ [item] ∧
      w.capacity_ = (if v.size_ = v.capacity_ then max (v.size_ + 1) (2 * v.capacity_)
        else v.capacity_) := by
  have hsl := size_le_length v hwf
  have hxs : v.elements.length = v.size_ := length_elements v hsl
  have hcap : v.size_ + 1 ≤ (if v.size_ = v.capacity_ then max (v.size_ + 1) (2 * v.capacity_)
      else v.capacity_) := by
    have := hwf.1
    split
    · exact Nat.le_max_left _ _
    · omega
  have hB : (if v.size_ = v.capacity_
      then (ArrayPtr.alloc (max (v.size_ + 1) (2 * v.capacity_)) : ArrayPtr α)
      else v.items_).length
      = (if v.size_ = v.capacity_ then max (v.size_ + 1) (2 * v.capacity_)
        else v.capacity_) := by
    split
    · rw [length_alloc]
    · exact hwf.2
  refine ⟨_, PushBack_eq v item hwf, ⟨hcap, ?_⟩, rfl, ?_, rfl⟩
  · show ((v.elements ++ [item]) ++ List.drop (v.size_ + 1) _).length = _
    rw [List.length_append, List.length_append, List.length_drop, hxs, hB]
    simp only [List.length_singleton]
    omega
  · show ((v.elements ++ [item]) ++ List.drop (v.size_ + 1) _).take (v.size_ + 1) = _
    have hl : (v.elements ++ [item]).length = v.size_ + 1 := by
      rw [List.length_append, hxs]; rfl
    rw [← hl, List.take_left]

theorem insertBody_facts [Inhabited α] (v : SimpleVector α) (k : Nat) (x : α)
    (hwf : v.WellFormed) (hk : k ≤ v.size_) :
    ∃ w, insertBody v k x = .ok (w, k) ∧ w.WellFormed ∧ w.size_ = v.size_ + 1 ∧
      w.elements = v.elements.take k ++ x :: v.elements.drop k ∧
      w.capacity_ = (if v.size_ = v.capacity_ then (if v.size_ = 0 then 1 else v.capacity_ * 2)
        else v.capacity_) ∧
      v.capacity_ ≤ w.capacity_ := by
  have hsl := size_le_length v hwf
  have hxs : v.elements.length = v.size_ := length_elements v hsl
  have hnc : v.size_ + 1 ≤
      (if v.size_ = v.capacity_ then (if v.size_ = 0 then 1 else v.capacity_ * 2)
        else v.capacity_) := by
    have := hwf.1
    split
    · split <;> omega
    · omega
  have hge : v.capacity_ ≤
      (if v.size_ = v.capacity_ then (if v.size_ = 0 then 1 else v.capacity_ * 2)
        else v.capacity_) := by
    split
    · split <;> omega
    · omega
  have hlen : (v.elements.take k ++ x :: v.elements.drop k).length = v.size_ + 1 := by
    simp; omega
  refine ⟨_, insertBody_eq v k x hwf hk, ⟨hnc, ?_⟩, rfl, ?_, rfl, hge⟩
  · show ((v.elements.take k ++ x :: v.elements.drop k) ++ List.drop (v.size_ + 1)
        (ArrayPtr.alloc (if v.size_ = v.capacity_ then (if v.size_ = 0 then 1
          else v.capacity_ * 2) else v.capacity_) : ArrayPtr α)).length
      = (if v.size_ = v.capacity_ then (if v.size_ = 0 then 1 else v.capacity_ * 2)
        else v.capacity_)
    rw [List.length_append, hlen, List.length_drop, length_alloc]
    omega
  · show ((v.elements.take k ++ x :: v.elements.drop k) ++ List.drop (v.size_ + 1) _).take
      (v.size_ + 1) = _
    rw [← hlen, List.take_left]

theorem Erase_facts [MoveSem α] (v : SimpleVector α) (k : Nat) (hwf : v.WellFormed)
    (hk : k < v.size_) :
    ∃ w, Erase v k = .ok (w, k) ∧ w.WellFormed ∧ w.size_ = v.size_ - 1 ∧
      w.elements = v.elements.eraseIdx k ∧ w.capacity_ = v.capacity_ := by
  have hsl := size_le_length v hwf
  have hxs : v.elements.length = v.size_ := length_elements v hsl
  have hpre : (v.elements.take k).length = k := by simp; omega
  have hmid : (v.elements.drop (k + 1)).length = v.size_ - 1 - k := by simp; omega
  refine ⟨_, Erase_eq v k hsl hk, ⟨?_, ?_⟩, rfl, ?_, rfl⟩
  · show v.size_ - 1 ≤ v.capacity_
    have := hwf.1
    omega
  · show (v.elements.take k ++ (v.elements.drop (k + 1) ++ _ :: v.items_.drop v.size_)).length
      = v.capacity_
    have := hwf.2
    rw [List.length_append, List.length_append, List.length_cons, hpre, hmid,
      List.length_drop]
    omega
  · show List.take (v.size_ - 1) (v.elements.take k ++ (v.elements.drop (k + 1) ++ _))
      = v.elements.eraseIdx k
    rw [List.eraseIdx_eq_take_drop_succ, ← List.append_assoc]
    have hl : (v.elements.take k ++ v.elements.drop (k + 1)).length = v.size_ - 1 := by
      rw [List.length_append, hpre, hmid]; omega
    rw [← hl, List.take_left]

theorem Reserve_facts [Inhabited α] (v : SimpleVector α) (n : Nat) (hwf : v.WellFormed) :
    ∃ w, Reserve v n = .ok w ∧ w.WellFormed ∧ w.size_ = v.size_ ∧
      w.elements = v.elements ∧ w.capacity_ = max v.capacity_ n := by
  have hsl := size_le_length v hwf
  have hxs : v.elements.length = v.size_ := length_elements v hsl
  by_cases hle : n ≤ v.capacity_
  · refine ⟨v, ?_, hwf, rfl, rfl, ?_⟩
    · unfold Reserve
      rw [if_pos hle]
    · omega
  · have hgt : v.capacity_ < n := by omega
    refine ⟨_, Reserve_eq v n hwf hgt, ⟨?_, ?_⟩, rfl, ?_, ?_⟩
    · show v.size_ ≤ n
      have := hwf.1
      omega
    · show (v.elements ++ (ArrayPtr.alloc n : ArrayPtr α).drop v.size_).length = n
      have := hwf.1
      rw [List.length_append, hxs, List.length_drop, length_alloc]
      omega
    · show (v.elements ++ (ArrayPtr.alloc n : ArrayPtr α).drop v.size_).take v.size_
        = v.elements
      rw [← hxs, List.take_left]
    · show n = max v.capacity_ n
      omega

theorem Resize_facts [Inhabited α] (v : SimpleVector α) (n : Nat) (hwf : v.WellFormed) :
    ∃ w, Resize v n = .ok w ∧ w.WellFormed ∧ w.size_ = n ∧
      w.capacity_ = max v.capacity_ n := by
  have hsl := size_le_length v hwf
  have hxs : v.elements.length = v.size_ := length_elements v hsl
  by_cases hle : n ≤ v.capacity_
  · refine ⟨_, Resize_shrink_eq v n (Or.inr hle), ⟨hle, hwf.2⟩, rfl, ?_⟩
    show v.capacity_ = max v.capacity_ n
    omega
  · have hgt : v.capacity_ < n := by omega
    refine ⟨_, Resize_grow_eq v n hwf hgt, ⟨Nat.le_refl _, ?_⟩, rfl, ?_⟩
    · show (v.elements ++ List.replicate (n - v.size_) default).length = n
      have := hwf.1
      rw [List.length_append, hxs, List.length_replicate]
      omega
    · show n = max v.capacity_ n
      omega

theorem pushAll_ok [Inhabited α] (xs : List α) :
    ∀ v : SimpleVector α, v.WellFormed →
      ((v.size_ = 0 ∧ v.capacity_ = 0) ∨
        ∃ e, v.capacity_ = 2 ^ e ∧ v.size_ ≤ v.capacity_ ∧ v.capacity_ < 2 * v.size_) →
      ∃ w, pushAll v (xs.map Arg.value) = .ok w ∧ w.WellFormed ∧
        w.size_ = v.size_ + xs.length ∧
        w.elements = v.elements ++ xs ∧
        ((w.size_ = 0 ∧ w.capacity_ = 0) ∨
          ∃ e, w.capacity_ = 2 ^ e ∧ w.size_ ≤ w.capacity_ ∧ w.capacity_ < 2 * w.size_) := by
  induction xs with
  | nil =>
    intro v hwf hinv
    exact ⟨v, rfl, hwf, rfl, by simp, hinv⟩
  | cons x xs ih =>
    intro v hwf hinv
    obtain ⟨w1, hpush, hwf1, hsize1, hel1, hcap1⟩ := PushBack_facts v x hwf
    have hinv1 : (w1.size_ = 0 ∧ w1.capacity_ = 0) ∨
        ∃ e, w1.capacity_ = 2 ^ e ∧ w1.size_ ≤ w1.capacity_ ∧ w1.capacity_ < 2 * w1.size_ := by
      right
      rcases hinv with ⟨h0, hc0⟩ | ⟨e, he, hle, hlt⟩
      · refine ⟨0, ?_, ?_, ?_⟩
        · rw [hcap1, if_pos (by omega), h0, hc0]; rfl
        · rw [hcap1, if_pos (by omega), hsize1]; exact Nat.le_max_left _ _
        · rw [hcap1, if_pos (by omega), hsize1, h0, hc0]; decide
      · by_cases hfull : v.size_ = v.capacity_
        · refine ⟨e + 1, ?_, ?_, ?_⟩
          · rw [hcap1, if_pos hfull, Nat.pow_succ, ← he]; omega
          · rw [hcap1, if_pos hfull, hsize1]; exact Nat.le_max_left _ _
          · rw [hcap1, if_pos hfull, hsize1]; omega
        · refine ⟨e, ?_, ?_, ?_⟩
          · rw [hcap1, if_neg hfull, he]
          · rw [hcap1, if_neg hfull, hsize1]; omega
          · rw [hcap1, if_neg hfull, hsize1]; omega
    obtain ⟨w, hrest, hwf2, hsize2, hel2, hinv2⟩ := ih w1 hwf1 hinv1
    refine ⟨w, ?_, hwf2, ?_, ?_, hinv2⟩
    · rw [List.map_cons, pushAll, hpush, ok_bind, hrest]
    · rw [hsize2, hsize1, List.length_cons]; omega
    · rw [hel2, hel1, List.append_assoc]; rfl

/-- Starting from the default-constructed vector, appending the values `xs`
(at least one), each passed as an object outside the vector, in order with
`PushBack(const Type&)` returns normally with size `xs.length`, live elements
`xs`, and a capacity that is a power of two, at least `xs.length`, and no
larger than any other power of two that is at least `xs.length`. -/
theorem pushAll_from_empty [Inhabited α] (xs : List α) (hn : 1 ≤ xs.length) :
    ∃ w e, pushAll (empty : SimpleVector α) (xs.map Arg.value) = .ok w ∧
      w.size_ = xs.length ∧
      w.elements = xs ∧ w.capacity_ = 2 ^ e ∧ xs.length ≤ 2 ^ e ∧
      ∀ e', xs.length ≤ 2 ^ e' → 2 ^ e ≤ 2 ^ e' := by
  obtain ⟨w, hpush, _, hsize, hel, hinv⟩ :=
    pushAll_ok xs (empty : SimpleVector α) ⟨Nat.le_refl _, rfl⟩ (Or.inl ⟨rfl, rfl⟩)
  have hsize2 : w.size_ = xs.length := by
    rw [hsize]; show 0 + xs.length = xs.length; omega
  rcases hinv with ⟨h0, _⟩ | ⟨e, he, hle, hlt⟩
  · omega
  · refine ⟨w, e, hpush, hsize2, ?_, he, ?_, ?_⟩
    · rw [hel]; rfl
    · omega
    · intro e2 h2
      by_contra hnot
      have hlt2 : e2 < e := by
        by_contra hge
        exact hnot (Nat.pow_le_pow_right (by decide) (by omega))
      have hpow : 2 ^ (e2 + 1) ≤ 2 ^ e := Nat.pow_le_pow_right (by decide) hlt2
      rw [Nat.pow_succ] at hpow
      omega

/-- The previous result for the outside values 1, 2, 3: size 3, capacity 4 and
elements `[1, 2, 3]`; one append gives capacity 1. -/
theorem pushAll_from_empty_witness :
    (∃ w e, pushAll (empty : SimpleVector Nat) ([1, 2, 3].map Arg.value) = .ok w ∧
      w.size_ = 3 ∧
      w.elements = [1, 2, 3] ∧ w.capacity_ = 2 ^ e ∧ 3 ≤ 2 ^ e ∧
      ∀ e', 3 ≤ 2 ^ e' → 2 ^ e ≤ 2 ^ e') ∧
    pushAll (empty : SimpleVector Nat) [Arg.value 1, Arg.value 2, Arg.value 3]
      = .ok ⟨[1, 2, 3, 0], 4, 3⟩ ∧
    pushAll (empty : SimpleVector Nat) [Arg.value 5] = .ok ⟨[5], 1, 1⟩ :=
  ⟨pushAll_from_empty ([1, 2, 3] : List Nat) (by decide), rfl, rfl⟩

/-- C11 (violated by the code): starting from the default-constructed vector,
`v.PushBack(a)` with `a == 5` gives the full vector `[5]`, in which `v[0]` is a
valid reference; the second call `v.PushBack(v[0])` grows the vector, releases
the block holding `v[0]` and only then reads its argument, so the sequence does
not return normally.  The same two values passed as outside objects give
`[5, 5]` with capacity 2. -/
theorem pushAll_own_element_dangling :
    pushAll (empty : SimpleVector Nat) [Arg.value 5] = .ok ⟨[5], 1, 1⟩ ∧
    opIndex (⟨[5], 1, 1⟩ : SimpleVector Nat) 0 = .ok 5 ∧
    pushAll (empty : SimpleVector Nat) [Arg.value 5, Arg.slot 0]
      = .error .undefinedBehaviour ∧
    pushAll (empty : SimpleVector Nat) [Arg.value 5, Arg.value 5]
      = .ok ⟨[5, 5], 2, 2⟩ :=
  ⟨rfl, rfl, rfl, rfl⟩

/-- With an argument that is an object outside the vector, `Insert(end(), x)`
(by-copy overload) and `PushBack(const Type&)` on a well-formed vector both
return normally with the same size, the same capacity and the same live
elements, and `Insert` returns the offset of the last element, which is the
old size. -/
theorem Insert_end_eq_PushBack [Inhabited α] (v : SimpleVector α) (x : α)
    (hwf : v.WellFormed) :
    ∃ wi wp, Insert v v.size_ x = .ok (wi, v.size_) ∧
      PushBack v (Arg.value x) = .ok wp ∧
      wi.size_ = wp.size_ ∧ wi.capacity_ = wp.capacity_ ∧ wi.elements = wp.elements ∧
      wi.elements = v.elements ++ [x] ∧ wi.size_ - 1 = v.size_ := by
  have hsl := size_le_length v hwf
  have hxs : v.elements.length = v.size_ := length_elements v hsl
  obtain ⟨wi, hi, _, hsi, heli, hci, _⟩ := insertBody_facts v v.size_ x hwf (Nat.le_refl _)
  obtain ⟨wp, hp, _, hsp, help, hcp⟩ := PushBack_facts v x hwf
  have hel : wi.elements = v.elements ++ [x] := by
    rw [heli, (show v.elements.take v.size_ = v.elements from
        List.take_of_length_le (by omega)),
      (show v.elements.drop v.size_ = [] from List.drop_of_length_le (by omega))]
  refine ⟨wi, wp, hi, hp, by rw [hsi, hsp], ?_, by rw [hel, help], hel, by rw [hsi]; omega⟩
  rw [hci, hcp]
  have := hwf.1
  split
  · split <;> omega
  · rfl

/-- The previous result on `[1, 2]` with capacity 2 and the outside value 7. -/
theorem Insert_end_eq_PushBack_witness :
    ∃ wi wp, Insert (⟨[1, 2], 2, 2⟩ : SimpleVector Nat) 2 7 = .ok (wi, 2) ∧
      PushBack (⟨[1, 2], 2, 2⟩ : SimpleVector Nat) (Arg.value 7) = .ok wp ∧
      wi.size_ = wp.size_ ∧ wi.capacity_ = wp.capacity_ ∧ wi.elements = wp.elements ∧
      wi.elements = [1, 2] ++ [7] ∧ wi.size_ - 1 = 2 :=
  Insert_end_eq_PushBack (⟨[1, 2], 2, 2⟩ : SimpleVector Nat) 7 ⟨by decide, rfl⟩

/-- C12 (violated by the code): on the full well-formed vector `[1, 2]`, where
`v[0]` designates the value 1, `Insert(end(), v[0])` reads its argument while
the old block is alive and returns `[1, 2, 1]` with capacity 4 and offset 2,
whereas `PushBack(v[0])` reads its argument after the old block was released
and does not return normally. -/
theorem Insert_end_defined_PushBack_dangling :
    WellFormed (⟨[1, 2], 2, 2⟩ : SimpleVector Nat) ∧
    Arg.read (Arg.slot 0) ([1, 2] : ArrayPtr Nat) false = .ok 1 ∧
    Insert (⟨[1, 2], 2, 2⟩ : SimpleVector Nat) 2 1 = .ok (⟨[1, 2, 1, 0], 4, 3⟩, 2) ∧
    PushBack (⟨[1, 2], 2, 2⟩ : SimpleVector Nat) (Arg.slot 0)
      = .error .undefinedBehaviour :=
  ⟨⟨by decide, rfl⟩, rfl, rfl, rfl⟩


theorem elements_eq_iff (a b : SimpleVector α) (ha : a.size_ ≤ a.items_.length)
    (hb : b.size_ ≤ b.items_.length) (hs : a.size_ = b.size_) :
    a.elements = b.elements ↔ ∀ i, i < a.size_ → a.items_[i]? = b.items_[i]? := by
  constructor
  · intro h i hi
    rw [← getElem?_elements a i hi, ← getElem?_elements b i (by omega), h]
  · intro h
    apply List.ext_getElem?
    intro i
    by_cases hi : i < a.size_
    · rw [getElem?_elements a i hi, getElem?_elements b i (by omega)]
      exact h i hi
    · rw [List.getElem?_eq_none (by rw [length_elements a ha]; omega),
        List.getElem?_eq_none (by rw [length_elements b hb]; omega)]

theorem lexList_append_right [LinearOrder α] (l : List α) (y : α) (t : List α) :
    lexList l (l ++ y :: t) = true := by
  induction l with
  | nil => rfl
  | cons x l ih =>
    rw [List.cons_append, lexList, if_neg (lt_irrefl x), if_neg (lt_irrefl x), ih]

/-- For vectors whose first `size_` slots exist, `a == b` returns true
exactly when the sizes are equal and the live elements agree index by index;
`==` is reflexive and symmetric, vectors of different sizes are never equal,
and `a != b` is the negation of `a == b`. -/
theorem opEq_spec [DecidableEq α] (a b : SimpleVector α)
    (ha : a.size_ ≤ a.items_.length) (hb : b.size_ ≤ b.items_.length) :
    (opEq a b = .ok true ↔
      a.size_ = b.size_ ∧ ∀ i, i < a.size_ → a.items_[i]? = b.items_[i]?) ∧
    (opEq a b = .ok false ↔
      ¬ (a.size_ = b.size_ ∧ ∀ i, i < a.size_ → a.items_[i]? = b.items_[i]?)) ∧
    opEq a a = .ok true ∧
    opEq b a = opEq a b ∧
    (a.size_ ≠ b.size_ → opEq a b = .ok false) ∧
    (∃ r, opEq a b = .ok r ∧ opNe a b = .ok (!r)) := by
  have hab := opEq_eq a b ha hb
  have hchar : (a.size_ = b.size_ ∧ a.elements = b.elements) ↔
      (a.size_ = b.size_ ∧ ∀ i, i < a.size_ → a.items_[i]? = b.items_[i]?) := by
    constructor
    · rintro ⟨hs, he⟩
      exact ⟨hs, (elements_eq_iff a b ha hb hs).1 he⟩
    · rintro ⟨hs, he⟩
      exact ⟨hs, (elements_eq_iff a b ha hb hs).2 he⟩
  refine ⟨?_, ?_, ?_, ?_, ?_, ⟨_, hab, ?_⟩⟩
  · rw [hab, ← hchar]
    simp
  · rw [hab, ← hchar]
    simp
  · rw [opEq_eq a a ha ha]
    simp
  · rw [hab, opEq_eq b a hb ha]
    congr 1
    rw [decide_eq_decide]
    exact ⟨fun h => ⟨h.1.symm, h.2.symm⟩, fun h => ⟨h.1.symm, h.2.symm⟩⟩
  · intro hne
    rw [hab]
    simp [hne]
  · rw [opNe, hab, ok_bind, pure_eq_ok]

/-- The previous result on `[1, 2]` held in blocks of different capacity and
with different residue: the two compare equal. -/
theorem opEq_spec_witness :
    opEq (⟨[1, 2, 9], 3, 2⟩ : SimpleVector Nat) ⟨[1, 2], 2, 2⟩ = .ok true ↔
      (2 : Nat) = 2 ∧ ∀ i, i < 2 → ([1, 2, 9] : List Nat)[i]? = ([1, 2] : List Nat)[i]? :=
  (opEq_spec (⟨[1, 2, 9], 3, 2⟩ : SimpleVector Nat) ⟨[1, 2], 2, 2⟩
    (by decide) (by decide)).1

/-- C13 (violated by the code): on the vector of size 2 with a block of one
slot that `Reserve(2)`, `PushBack(one)`, copy construction and `Resize(2)`
produce, `c == c` and `c != c` read slot 1 of both operands, outside the
block, so `==` is not reflexive there; against a vector of another size the
comparison still returns false without reading. -/
theorem opEq_reads_past_copied_block :
    (Reserve (empty : SimpleVector Nat) 2 >>= fun v =>
      PushBack v (Arg.value 1) >>= fun s => copy s >>= fun c => Resize c 2)
      = .ok ⟨[1], 2, 2⟩ ∧
    opEq (⟨[1], 2, 2⟩ : SimpleVector Nat) ⟨[1], 2, 2⟩ = .error .undefinedBehaviour ∧
    opNe (⟨[1], 2, 2⟩ : SimpleVector Nat) ⟨[1], 2, 2⟩ = .error .undefinedBehaviour ∧
    opEq (⟨[1], 2, 2⟩ : SimpleVector Nat) ⟨[1], 1, 1⟩ = .ok false :=
  ⟨rfl, rfl, rfl, rfl⟩

/-- For a linearly ordered element type and vectors whose first `size_`
slots exist, all six operators return normally; `a < b` is the lexicographic
order of the live element sequences (a proper prefix is smaller), `a <= b` is
`a < b or a == b`, `a > b` is `b < a`, `a >= b` is `a > b or a == b`, and
exactly one of `a < b`, `a == b`, `b < a` holds. -/
theorem opLt_spec [LinearOrder α] (a b : SimpleVector α)
    (ha : a.size_ ≤ a.items_.length) (hb : b.size_ ≤ b.items_.length) :
    ∃ lt eq gt : Bool, opLt a b = .ok lt ∧ opEq a b = .ok eq ∧ opLt b a = .ok gt ∧
      (lt = true ↔ List.Lex (fun x y : α => x < y) a.elements b.elements) ∧
      (∀ y t, b.elements = a.elements ++ y :: t → lt = true) ∧
      (eq = true ↔ a.elements = b.elements) ∧
      opLe a b = .ok (lt || eq) ∧ opGt a b = .ok gt ∧ opGe a b = .ok (gt || eq) ∧
      ((lt = true ∧ eq = false ∧ gt = false) ∨ (lt = false ∧ eq = true ∧ gt = false) ∨
        (lt = false ∧ eq = false ∧ gt = true)) := by
  have hlt := opLt_eq a b ha hb
  have hgt := opLt_eq b a hb ha
  have heq := opEq_eq a b ha hb
  have hiff : decide (a.size_ = b.size_ ∧ a.elements = b.elements) = true
      ↔ a.elements = b.elements := by
    rw [decide_eq_true_iff]
    constructor
    · exact fun h => h.2
    · intro h
      refine ⟨?_, h⟩
      rw [← length_elements a ha, ← length_elements b hb, h]
  have htri := lexList_trichotomy a.elements b.elements
  have hone : (lexList a.elements b.elements = true ∧
        decide (a.size_ = b.size_ ∧ a.elements = b.elements) = false ∧
        lexList b.elements a.elements = false) ∨
      (lexList a.elements b.elements = false ∧
        decide (a.size_ = b.size_ ∧ a.elements = b.elements) = true ∧
        lexList b.elements a.elements = false) ∨
      (lexList a.elements b.elements = false ∧
        decide (a.size_ = b.size_ ∧ a.elements = b.elements) = false ∧
        lexList b.elements a.elements = true) := by
    rcases htri with ⟨h1, h2, h3⟩ | ⟨h1, h2, h3⟩ | ⟨h1, h2, h3⟩
    · exact Or.inl ⟨h1, by rw [Bool.eq_false_iff]; exact fun h => h2 (hiff.1 h), h3⟩
    · exact Or.inr (Or.inl ⟨h1, hiff.2 h2, h3⟩)
    · exact Or.inr (Or.inr ⟨h1, by rw [Bool.eq_false_iff]; exact fun h => h2 (hiff.1 h), h3⟩)
  refine ⟨_, _, _, hlt, heq, hgt, lexList_iff_lex _ _, ?_, hiff, ?_, hgt, ?_, hone⟩
  · intro y t hyt
    rw [hyt]
    exact lexList_append_right _ _ _
  · rw [opLe, hgt, ok_bind, pure_eq_ok]
    congr 1
    rcases hone with ⟨h1, h2, h3⟩ | ⟨h1, h2, h3⟩ | ⟨h1, h2, h3⟩ <;> rw [h1, h2, h3] <;> rfl
  · rw [opGe, hlt, ok_bind, pure_eq_ok]
    congr 1
    rcases hone with ⟨h1, h2, h3⟩ | ⟨h1, h2, h3⟩ | ⟨h1, h2, h3⟩ <;> rw [h1, h2, h3] <;> rfl

/-- The previous result on the live sequences `[1, 2]` and `[1, 2, 3]`. -/
theorem opLt_spec_witness :
    ∃ lt eq gt : Bool, opLt (⟨[1, 2, 9], 3, 2⟩ : SimpleVector Nat) ⟨[1, 2, 3], 3, 3⟩ = .ok lt ∧
      opEq (⟨[1, 2, 9], 3, 2⟩ : SimpleVector Nat) ⟨[1, 2, 3], 3, 3⟩ = .ok eq ∧
      opLt (⟨[1, 2, 3], 3, 3⟩ : SimpleVector Nat) ⟨[1, 2, 9], 3, 2⟩ = .ok gt ∧
      (lt = true ↔ List.Lex (fun x y : Nat => x < y) [1, 2] [1, 2, 3]) ∧
      (∀ y t, [1, 2, 3] = [1, 2] ++ y :: t → lt = true) ∧
      (eq = true ↔ ([1, 2] : List Nat) = [1, 2, 3]) ∧
      opLe (⟨[1, 2, 9], 3, 2⟩ : SimpleVector Nat) ⟨[1, 2, 3], 3, 3⟩ = .ok (lt || eq) ∧
      opGt (⟨[1, 2, 9], 3, 2⟩ : SimpleVector Nat) ⟨[1, 2, 3], 3, 3⟩ = .ok gt ∧
      opGe (⟨[1, 2, 9], 3, 2⟩ : SimpleVector Nat) ⟨[1, 2, 3], 3, 3⟩ = .ok (gt || eq) ∧
      ((lt = true ∧ eq = false ∧ gt = false) ∨ (lt = false ∧ eq = true ∧ gt = false) ∨
        (lt = false ∧ eq = false ∧ gt = true)) :=
  opLt_spec (⟨[1, 2, 9], 3, 2⟩ : SimpleVector Nat) ⟨[1, 2, 3], 3, 3⟩ (by decide) (by decide)

/-- C14 (violated by the code): on the vector of size 2 with a block of one
slot that `Reserve(2)`, `PushBack(one)`, copy construction and `Resize(2)`
produce, `c < c`, `c == c`, `c <= c`, `c > c` and `c >= c` all read slot 1,
outside the block, so none of `a < b`, `a == b`, `b < a` is decided and the
laws of the derived operators do not hold there. -/
theorem opLt_reads_past_copied_block :
    (Reserve (empty : SimpleVector Nat) 2 >>= fun v =>
      PushBack v (Arg.value 1) >>= fun s => copy s >>= fun c => Resize c 2)
      = .ok ⟨[1], 2, 2⟩ ∧
    opLt (⟨[1], 2, 2⟩ : SimpleVector Nat) ⟨[1], 2, 2⟩ = .error .undefinedBehaviour ∧
    opEq (⟨[1], 2, 2⟩ : SimpleVector Nat) ⟨[1], 2, 2⟩ = .error .undefinedBehaviour ∧
    opLe (⟨[1], 2, 2⟩ : SimpleVector Nat) ⟨[1], 2, 2⟩ = .error .undefinedBehaviour ∧
    opGt (⟨[1], 2, 2⟩ : SimpleVector Nat) ⟨[1], 2, 2⟩ = .error .undefinedBehaviour ∧
    opGe (⟨[1], 2, 2⟩ : SimpleVector Nat) ⟨[1], 2, 2⟩ = .error .undefinedBehaviour :=
  ⟨rfl, rfl, rfl, rfl, rfl, rfl⟩

/-- C15: on a well-formed vector, `Resize(n)` with `size_ < n ≤ capacity_`
returns normally with size `n` and the capacity and every slot of the block
unchanged, so the newly exposed elements are the residual slot values; and for
`m ≤ size_`, `Resize(m)` followed by `Resize(old size)` returns exactly the
original vector. -/
theorem Resize_within_capacity [Inhabited α] (v : SimpleVector α) (n m : Nat)
    (hwf : v.WellFormed) :
    (v.size_ < n → n ≤ v.capacity_ →
      ∃ w, Resize v n = .ok w ∧ w.size_ = n ∧ w.capacity_ = v.capacity_ ∧
        w.items_ = v.items_ ∧ w.elements = v.items_.take n) ∧
    (m ≤ v.size_ → (Resize v m >>= fun w => Resize w v.size_) = .ok v) := by
  constructor
  · intro _ hle
    exact ⟨_, Resize_shrink_eq v n (Or.inr hle), rfl, rfl, rfl, rfl⟩
  · intro hle
    have h1 := hwf.1
    rw [Resize_shrink_eq v m (Or.inr (by omega)), ok_bind]
    exact Resize_shrink_eq _ v.size_ (Or.inr h1)

/-- Instance of C15: `[1, 2, 3]` after `Resize(1)` and `Resize(3)` reads
`[1, 2, 3]` again; growing `[1]` inside a block `[1, 2, 3]` exposes 2 and 3. -/
theorem Resize_within_capacity_witness :
    (∃ w, Resize (⟨[1, 2, 3], 3, 1⟩ : SimpleVector Nat) 3 = .ok w ∧ w.size_ = 3 ∧
        w.capacity_ = 3 ∧ w.items_ = [1, 2, 3] ∧ w.elements = [1, 2, 3]) ∧
    (Resize (⟨[1, 2, 3], 3, 3⟩ : SimpleVector Nat) 1 >>= fun w => Resize w 3)
      = .ok ⟨[1, 2, 3], 3, 3⟩ :=
  ⟨(Resize_within_capacity (⟨[1, 2, 3], 3, 1⟩ : SimpleVector Nat) 3 0 ⟨by decide, rfl⟩).1
      (by decide) (by decide),
   (Resize_within_capacity (⟨[1, 2, 3], 3, 3⟩ : SimpleVector Nat) 0 1 ⟨by decide, rfl⟩).2
      (by decide)⟩

/-! ## Size and capacity of any normal result -/

theorem bind_ok_inv {β γ : Type} {x : Except Fault β} {f : β → Except Fault γ} {c : γ}
    (h : (x >>= f) = .ok c) : ∃ b, x = .ok b ∧ f b = .ok c := by
  cases x with
  | error e => rw [error_bind] at h; cases h
  | ok b => exact ⟨b, rfl, h⟩

theorem ok_inj {β : Type} {x y : β} (h : (Except.ok x : Except Fault β) = .ok y) : x = y := by
  cases h
  rfl

theorem Reserve_shape [Inhabited α] {v w : SimpleVector α} {n : Nat}
    (h : Reserve v n = .ok w) : w.size_ = v.size_ ∧ w.capacity_ = max v.capacity_ n := by
  unfold Reserve at h
  split at h
  · have := ok_inj h
    subst this
    exact ⟨rfl, by omega⟩
  · obtain ⟨d, _, h2⟩ := bind_ok_inv h
    have := ok_inj h2
    subst this
    exact ⟨rfl, by show n = max v.capacity_ n; omega⟩

theorem IncreaseCapacity_shape [Inhabited α] {v w : SimpleVector α} {n : Nat}
    (h : IncreaseCapacity v n = .ok w) :
    w.size_ = v.size_ ∧ w.capacity_ = max n (2 * v.capacity_) := by
  unfold IncreaseCapacity at h
  obtain ⟨d, _, h2⟩ := bind_ok_inv h
  have := ok_inj h2
  subst this
  exact ⟨rfl, rfl⟩

theorem PushBack_shape [Inhabited α] {v w : SimpleVector α} {item : Arg α}
    (h : PushBack v item = .ok w) :
    w.size_ = v.size_ + 1 ∧
    w.capacity_ = (if v.size_ = v.capacity_ then max (v.size_ + 1) (2 * v.capacity_)
      else v.capacity_) := by
  unfold PushBack at h
  dsimp only at h
  split at h
  · rename_i hc
    obtain ⟨v1, hv1, h2⟩ := bind_ok_inv h
    obtain ⟨x, _, h2x⟩ := bind_ok_inv h2
    obtain ⟨items, _, h3⟩ := bind_ok_inv h2x
    have := ok_inj h3
    subst this
    obtain ⟨hs, hcap⟩ := IncreaseCapacity_shape hv1
    refine ⟨by show v1.size_ + 1 = v.size_ + 1; rw [hs], ?_⟩
    show v1.capacity_ = _
    rw [hcap, if_pos hc]
  · rename_i hc
    obtain ⟨v1, hv1, h2⟩ := bind_ok_inv h
    obtain ⟨x, _, h2x⟩ := bind_ok_inv h2
    obtain ⟨items, _, h3⟩ := bind_ok_inv h2x
    have := ok_inj h3
    subst this
    have := ok_inj hv1
    subst this
    refine ⟨rfl, ?_⟩
    show v.capacity_ = _
    rw [if_neg hc]

theorem PushBackMove_shape [Inhabited α] {v w : SimpleVector α} {item : α}
    (h : PushBackMove v item = .ok w) :
    w.size_ = v.size_ + 1 ∧
    w.capacity_ = max v.capacity_ (if v.size_ = 0 then 1 else v.capacity_ * 2) := by
  unfold PushBackMove at h
  obtain ⟨a1, _, h2⟩ := bind_ok_inv h
  obtain ⟨a2, _, h3⟩ := bind_ok_inv h2
  have := ok_inj h3
  subst this
  exact ⟨rfl, rfl⟩

theorem insertBody_shape [Inhabited α] {v w : SimpleVector α} {pos p : Nat} {x : α}
    (h : insertBody v pos x = .ok (w, p)) :
    pos ≤ v.size_ ∧ w.size_ = v.size_ + 1 ∧
    w.capacity_ = (if v.size_ = v.capacity_ then (if v.size_ = 0 then 1 else v.capacity_ * 2)
      else v.capacity_) := by
  unfold insertBody at h
  split at h
  · cases h
  · rename_i hpos
    dsimp only at h
    split at h
    · rename_i hz
      obtain ⟨a, _, h2⟩ := bind_ok_inv h
      obtain ⟨y, _, h3⟩ := bind_ok_inv h2
      have hw : w = _ := (Prod.mk.inj (ok_inj h3)).1.symm
      subst hw
      refine ⟨by omega, rfl, ?_⟩
      dsimp only
      split_ifs <;> omega
    · rename_i hz
      obtain ⟨q, _, h2⟩ := bind_ok_inv h
      split at h2
      · obtain ⟨a, _, h3⟩ := bind_ok_inv h2
        obtain ⟨y, _, h4⟩ := bind_ok_inv h3
        have hw : w = _ := (Prod.mk.inj (ok_inj h4)).1.symm
        subst hw
        refine ⟨by omega, rfl, ?_⟩
        dsimp only
        split_ifs <;> omega
      · obtain ⟨y, _, h4⟩ := bind_ok_inv h2
        have hw : w = _ := (Prod.mk.inj (ok_inj h4)).1.symm
        subst hw
        refine ⟨by omega, rfl, ?_⟩
        dsimp only
        split_ifs <;> omega

theorem Erase_shape [MoveSem α] {v w : SimpleVector α} {pos p : Nat}
    (h : Erase v pos = .ok (w, p)) :
    0 < v.size_ ∧ pos ≤ v.size_ ∧ w.size_ = v.size_ - 1 ∧ w.capacity_ = v.capacity_ ∧
      p = pos := by
  unfold Erase at h
  split at h
  · cases h
  · split at h
    · cases h
    · rename_i h0 hpos
      dsimp only at h
      split at h
      · obtain ⟨items, _, h2⟩ := bind_ok_inv h
        have hw : w = _ := (Prod.mk.inj (ok_inj h2)).1.symm
        have hp : pos = p := (Prod.mk.inj (ok_inj h2)).2
        subst hw
        exact ⟨by omega, by omega, rfl, rfl, hp.symm⟩
      · obtain ⟨items, _, h2⟩ := bind_ok_inv h
        have hw : w = _ := (Prod.mk.inj (ok_inj h2)).1.symm
        have hp : pos = p := (Prod.mk.inj (ok_inj h2)).2
        subst hw
        exact ⟨by omega, by omega, rfl, rfl, hp.symm⟩

theorem Resize_shape [Inhabited α] {v w : SimpleVector α} {n : Nat}
    (h : Resize v n = .ok w) : w.size_ = n ∧ w.capacity_ = max v.capacity_ n ∨
      (w.size_ = n ∧ n < v.size_ ∧ w.capacity_ = v.capacity_) := by
  unfold Resize at h
  split at h
  · rename_i hc
    have := ok_inj h
    subst this
    rcases hc with hc | hc
    · exact Or.inr ⟨rfl, hc, rfl⟩
    · exact Or.inl ⟨rfl, by show v.capacity_ = max v.capacity_ n; omega⟩
  · rename_i hc
    split at h
    · obtain ⟨d, _, h2⟩ := bind_ok_inv h
      have := ok_inj h2
      subst this
      exact Or.inl ⟨rfl, by show n = max v.capacity_ n; omega⟩
    · omega

theorem copy_shape [Inhabited α] {v w : SimpleVector α} (h : copy v = .ok w) :
    w.size_ = v.size_ ∧ w.capacity_ = v.capacity_ ∧ w.items_.length = v.size_ := by
  unfold copy at h
  obtain ⟨d, hd, h2⟩ := bind_ok_inv h
  have := ok_inj h2
  subst this
  refine ⟨rfl, rfl, ?_⟩
  show d.length = v.size_
  by_cases hsl : v.size_ ≤ v.items_.length
  · rw [copyLoop_ok _ _ _ hsl (by rw [length_alloc])] at hd
    have := ok_inj hd
    subst this
    rw [List.length_append, List.length_take, List.length_drop, length_alloc]
    omega
  · exfalso
    have hbad : ∀ (n : Nat) (dst : ArrayPtr α), v.items_.length < n →
        ∀ r, copyLoop v.items_ n dst ≠ .ok r := by
      intro n
      induction n with
      | zero => intro dst hn; omega
      | succ n ih =>
        intro dst hn r hr
        rw [copyLoop] at hr
        obtain ⟨d1, hd1, hr2⟩ := bind_ok_inv hr
        obtain ⟨x, hx, _⟩ := bind_ok_inv hr2
        by_cases hlt : v.items_.length < n
        · exact ih dst hlt d1 hd1
        · have hnone : v.items_[n]? = none := List.getElem?_eq_none (by omega)
          rw [ArrayPtr.read, hnone] at hx
          cases hx
    exact hbad v.size_ _ (by omega) d hd

theorem opAssign_shape [Inhabited α] {v rhs w : SimpleVector α} {self : Bool}
    (h : opAssign v rhs self = .ok w) :
    (self = false ∧ w.size_ = rhs.size_ ∧ w.capacity_ = rhs.capacity_) ∨
      (self = true ∧ w = v) := by
  unfold opAssign at h
  split at h
  · rename_i hs
    obtain ⟨c, hc, h2⟩ := bind_ok_inv h
    have := ok_inj h2
    obtain ⟨h1, h2, _⟩ := copy_shape hc
    left
    refine ⟨hs, ?_, ?_⟩
    · rw [← this]; exact h1
    · rw [← this]; exact h2
  · rename_i hs
    right
    exact ⟨by simpa using hs, (ok_inj h).symm⟩

/-- C16: invariant I1 is preserved by every mutating operation.  For a vector
with `size_ ≤ capacity_`, whenever `Reserve`, either `PushBack`, either
`Insert`, `Erase`, `Resize` or copy assignment returns normally, the result has
`size_ ≤ capacity_`; so have the results of `PopBack` (for `size_ > 0`),
`Clear` and both sides of `swap`.  The argument of `PushBack(const Type&)` may
be any object, an element of the vector included.  On well-formed vectors and
within the preconditions all of these operations do return normally,
`PushBack(const Type&)` when its argument is an object outside the vector. -/
theorem I1_preserved [Inhabited α] [MoveSem α] (v other : SimpleVector α) (n k : Nat)
    (x : α) (item : Arg α) (self : Bool) (hv : v.size_ ≤ v.capacity_)
    (ho : other.size_ ≤ other.capacity_) :
    (∀ w, Reserve v n = .ok w → w.size_ ≤ w.capacity_) ∧
    (∀ w, PushBack v item = .ok w → w.size_ ≤ w.capacity_) ∧
    (∀ w, PushBackMove v x = .ok w → w.size_ ≤ w.capacity_) ∧
    (∀ w p, Insert v k x = .ok (w, p) → w.size_ ≤ w.capacity_) ∧
    (∀ w p, InsertMove v k x = .ok (w, p) → w.size_ ≤ w.capacity_) ∧
    (0 < v.size_ → (PopBack v).size_ ≤ (PopBack v).capacity_) ∧
    (∀ w p, Erase v k = .ok (w, p) → w.size_ ≤ w.capacity_) ∧
    (Clear v).size_ ≤ (Clear v).capacity_ ∧
    (∀ w, Resize v n = .ok w → w.size_ ≤ w.capacity_) ∧
    ((swap v other).1.size_ ≤ (swap v other).1.capacity_ ∧
      (swap v other).2.size_ ≤ (swap v other).2.capacity_) ∧
    (∀ w, opAssign v other self = .ok w → w.size_ ≤ w.capacity_) ∧
    (v.WellFormed → other.WellFormed →
      (∃ w, Reserve v n = .ok w) ∧ (∃ w, PushBack v (Arg.value x) = .ok w) ∧
      (∃ w, PushBackMove v x = .ok w) ∧
      (k ≤ v.size_ → ∃ w, Insert v k x = .ok (w, k)) ∧
      (k ≤ v.size_ → ∃ w, InsertMove v k x = .ok (w, k)) ∧
      (0 < v.size_ → k ≤ v.size_ → ∃ w, Erase v k = .ok (w, k)) ∧
      (∃ w, Resize v n = .ok w) ∧
      (∃ w, opAssign v other self = .ok w)) := by
  have hins : ∀ w p, insertBody v k x = .ok (w, p) → w.size_ ≤ w.capacity_ := by
    intro w p h
    obtain ⟨_, hs, hc⟩ := insertBody_shape h
    rw [hs, hc]
    split
    · split <;> omega
    · omega
  refine ⟨?_, ?_, ?_, hins, hins, ?_, ?_, ?_, ?_, ⟨ho, hv⟩, ?_, ?_⟩
  · intro w h
    obtain ⟨hs, hc⟩ := Reserve_shape h
    rw [hs, hc]
    omega
  · intro w h
    obtain ⟨hs, hc⟩ := PushBack_shape h
    rw [hs, hc]
    split <;> omega
  · intro w h
    obtain ⟨hs, hc⟩ := PushBackMove_shape h
    rw [hs, hc]
    split <;> omega
  · intro hpos
    show (if v.size_ = 0 then 2 ^ 64 - 1 else v.size_ - 1) ≤ v.capacity_
    rw [if_neg (by omega)]
    omega
  · intro w p h
    obtain ⟨_, _, hs, hc, _⟩ := Erase_shape h
    rw [hs, hc]
    omega
  · exact Nat.zero_le _
  · intro w h
    rcases Resize_shape h with ⟨hs, hc⟩ | ⟨hs, hlt, hc⟩
    · rw [hs, hc]
      omega
    · rw [hs, hc]
      omega
  · intro w h
    rcases opAssign_shape h with ⟨_, hs, hc⟩ | ⟨_, hw⟩
    · rw [hs, hc]
      exact ho
    · rw [hw]
      exact hv
  · intro hwf hwfo
    refine ⟨?_, ?_, ⟨_, PushBackMove_eq v x hwf⟩, ?_, ?_, ?_, ?_, ?_⟩
    · obtain ⟨w, h, _⟩ := Reserve_facts v n hwf
      exact ⟨w, h⟩
    · obtain ⟨w, h, _⟩ := PushBack_facts v x hwf
      exact ⟨w, h⟩
    · intro hk
      obtain ⟨w, h, _⟩ := insertBody_facts v k x hwf hk
      exact ⟨w, h⟩
    · intro hk
      obtain ⟨w, h, _⟩ := insertBody_facts v k x hwf hk
      exact ⟨w, h⟩
    · intro hpos hk
      by_cases hlt : k < v.size_
      · obtain ⟨w, h, _⟩ := Erase_facts v k hwf hlt
        exact ⟨w, h⟩
      · have hke : k = v.size_ := by omega
        subst hke
        exact ⟨_, Erase_end_eq v hpos⟩
    · obtain ⟨w, h, _⟩ := Resize_facts v n hwf
      exact ⟨w, h⟩
    · cases self with
      | false =>
        have hc := copy_eq other (size_le_length other hwfo)
        refine ⟨(swap v ⟨other.elements, other.capacity_, other.size_⟩).1, ?_⟩
        unfold opAssign
        rw [if_pos rfl, hc, ok_bind, pure_eq_ok]
      | true =>
        exact ⟨v, rfl⟩

/-- Instance of C16 on the full vector `[1, 2]`: the results of `PushBack(7)`
and of `Erase` at offset 1 keep `size_ ≤ capacity_`. -/
theorem I1_preserved_witness :
    (∀ w, PushBack (⟨[1, 2], 2, 2⟩ : SimpleVector Nat) (Arg.value 7) = .ok w →
      w.size_ ≤ w.capacity_) ∧
    (∀ w p, Erase (⟨[1, 2], 2, 2⟩ : SimpleVector Nat) 1 = .ok (w, p) →
      w.size_ ≤ w.capacity_) :=
  ⟨(I1_preserved (⟨[1, 2], 2, 2⟩ : SimpleVector Nat) ⟨[3], 1, 1⟩ 5 1 7 (Arg.value 7) false
      (by decide) (by decide)).2.1,
   (I1_preserved (⟨[1, 2], 2, 2⟩ : SimpleVector Nat) ⟨[3], 1, 1⟩ 5 1 7 (Arg.value 7) false
      (by decide) (by decide)).2.2.2.2.2.2.1⟩

/-- The mutating operations other than `PushBack(Type&&)` and copy assignment
return normally on a well-formed vector, within their preconditions, with a
well-formed result. -/
theorem wellFormed_preserved [Inhabited α] [MoveSem α] (v other : SimpleVector α)
    (n k : Nat) (x : α) (hwf : v.WellFormed) (hwfo : other.WellFormed) :
    (∃ w, Reserve v n = .ok w ∧ w.WellFormed) ∧
    (∃ w, PushBack v (Arg.value x) = .ok w ∧ w.WellFormed) ∧
    (k ≤ v.size_ → ∃ w, Insert v k x = .ok (w, k) ∧ w.WellFormed) ∧
    (k ≤ v.size_ → ∃ w, InsertMove v k x = .ok (w, k) ∧ w.WellFormed) ∧
    (0 < v.size_ → (PopBack v).WellFormed) ∧
    (0 < v.size_ → k ≤ v.size_ → ∃ w, Erase v k = .ok (w, k) ∧ w.WellFormed) ∧
    (Clear v).WellFormed ∧
    (∃ w, Resize v n = .ok w ∧ w.WellFormed) ∧
    ((swap v other).1.WellFormed ∧ (swap v other).2.WellFormed) := by
  refine ⟨?_, ?_, ?_, ?_, ?_, ?_, ⟨Nat.zero_le _, hwf.2⟩, ?_, ⟨hwfo, hwf⟩⟩
  · obtain ⟨w, h, hw, _⟩ := Reserve_facts v n hwf
    exact ⟨w, h, hw⟩
  · obtain ⟨w, h, hw, _⟩ := PushBack_facts v x hwf
    exact ⟨w, h, hw⟩
  · intro hk
    obtain ⟨w, h, hw, _⟩ := insertBody_facts v k x hwf hk
    exact ⟨w, h, hw⟩
  · intro hk
    obtain ⟨w, h, hw, _⟩ := insertBody_facts v k x hwf hk
    exact ⟨w, h, hw⟩
  · intro hpos
    refine ⟨?_, hwf.2⟩
    show (if v.size_ = 0 then 2 ^ 64 - 1 else v.size_ - 1) ≤ v.capacity_
    have := hwf.1
    rw [if_neg (by omega)]
    omega
  · intro hpos hk
    by_cases hlt : k < v.size_
    · obtain ⟨w, h, hw, _⟩ := Erase_facts v k hwf hlt
      exact ⟨w, h, hw⟩
    · have hke : k = v.size_ := by omega
      subst hke
      refine ⟨_, Erase_end_eq v hpos, ?_, hwf.2⟩
      show v.size_ - 1 ≤ v.capacity_
      have := hwf.1
      omega
  · obtain ⟨w, h, hw, _⟩ := Resize_facts v n hwf
    exact ⟨w, h, hw⟩

/-- C17 (violated by the code): `PushBack(Type&&)` on the well-formed
reserved-but-empty vector built by `SimpleVector(Reserve(3))` returns a vector
that owns a block of one slot while reporting capacity 3; and copy assignment
from the well-formed vector `[1]` with capacity 2 leaves the target with a
block of one slot while reporting capacity 2. -/
theorem I2_broken_by_PushBackMove_and_assignment :
    (ofReserve (SV.Reserve 3) : Except Fault (SimpleVector Nat)) = .ok ⟨[0, 0, 0], 3, 0⟩ ∧
    WellFormed (⟨[0, 0, 0], 3, 0⟩ : SimpleVector Nat) ∧
    PushBackMove (⟨[0, 0, 0], 3, 0⟩ : SimpleVector Nat) 7 = .ok ⟨[7], 3, 1⟩ ∧
    ¬ WellFormed (⟨[7], 3, 1⟩ : SimpleVector Nat) ∧
    WellFormed (⟨[1, 0], 2, 1⟩ : SimpleVector Nat) ∧
    opAssign (empty : SimpleVector Nat) ⟨[1, 0], 2, 1⟩ false = .ok ⟨[1], 2, 1⟩ ∧
    ¬ WellFormed (⟨[1], 2, 1⟩ : SimpleVector Nat) :=
  ⟨rfl, ⟨by decide, rfl⟩, rfl, fun h => absurd h.2 (by decide), ⟨by decide, rfl⟩, rfl,
    fun h => absurd h.2 (by decide)⟩

/-- C18 (violated by the code): the assertion of `operator[]` accepts
`index == size_`.  On `[1, 2, 3]` held in a block of four slots index 3 passes
the assertion and yields the residual slot, although `At(3)` reports it out of
range; with a block of exactly three slots index 3 passes the assertion and
reads outside the block. -/
theorem opIndex_accepts_size :
    opIndex (⟨[1, 2, 3, 0], 4, 3⟩ : SimpleVector Nat) 3 = .ok 0 ∧
    At (⟨[1, 2, 3, 0], 4, 3⟩ : SimpleVector Nat) 3 = .error .outOfRange ∧
    opIndex (⟨[1, 2, 3], 3, 3⟩ : SimpleVector Nat) 3 = .error .undefinedBehaviour ∧
    opIndex (⟨[1, 2, 3], 3, 3⟩ : SimpleVector Nat) 4 = .error .assertFailed :=
  ⟨rfl, rfl, rfl, rfl⟩

/-- C19: on a well-formed non-empty vector `Erase(end())` passes both
assertions and returns normally; the block is untouched, the resulting vector
is exactly the one `PopBack` produces (size one less, same live elements, same
capacity), and the returned offset is the old size, one past `end()` of the
result. -/
theorem Erase_at_end [MoveSem α] (v : SimpleVector α) (hwf : v.WellFormed)
    (hpos : 0 < v.size_) :
    ∃ w, Erase v v.size_ = .ok (w, v.size_) ∧ w.items_ = v.items_ ∧ w = PopBack v ∧
      w.size_ = (PopBack v).size_ ∧ w.elements = (PopBack v).elements ∧
      w.size_ = v.size_ - 1 ∧ w.elements = v.elements.take (v.size_ - 1) ∧
      w.capacity_ = v.capacity_ ∧ v.size_ = w.size_ + 1 ∧ w.WellFormed := by
  have hpop : ({ items_ := v.items_, capacity_ := v.capacity_, size_ := v.size_ - 1 } :
      SimpleVector α) = PopBack v := by
    unfold PopBack
    rw [if_neg (by omega)]
  have h1 := hwf.1
  refine ⟨_, Erase_end_eq v hpos, rfl, hpop, by rw [hpop], by rw [hpop], rfl, ?_, rfl, ?_,
    ⟨?_, hwf.2⟩⟩
  · show v.items_.take (v.size_ - 1) = (v.items_.take v.size_).take (v.size_ - 1)
    rw [List.take_take, Nat.min_eq_left (by omega)]
  · show v.size_ = v.size_ - 1 + 1
    omega
  · show v.size_ - 1 ≤ v.capacity_
    omega

/-- Instance of C19 on `[1, 2, 3]`: `Erase(end())` leaves `[1, 2]` and returns
offset 3. -/
theorem Erase_at_end_witness :
    ∃ w, Erase (⟨[1, 2, 3], 3, 3⟩ : SimpleVector Nat) 3 = .ok (w, 3) ∧
      w.items_ = [1, 2, 3] ∧ w = PopBack ⟨[1, 2, 3], 3, 3⟩ ∧
      w.size_ = (PopBack (⟨[1, 2, 3], 3, 3⟩ : SimpleVector Nat)).size_ ∧
      w.elements = (PopBack (⟨[1, 2, 3], 3, 3⟩ : SimpleVector Nat)).elements ∧
      w.size_ = 2 ∧ w.elements = [1, 2] ∧ w.capacity_ = 3 ∧ 3 = w.size_ + 1 ∧
      w.WellFormed :=
  Erase_at_end (⟨[1, 2, 3], 3, 3⟩ : SimpleVector Nat) ⟨by decide, rfl⟩ (by decide)

/-- C20: on a well-formed vector with live elements `xs`, `Insert` at offset
`k ≤ size_` followed by `Erase` at the offset `Insert` returned both return
normally and give a vector with the original size and the original live
elements, whose capacity is at least the original capacity. -/
theorem Erase_after_Insert [Inhabited α] [MoveSem α] (v : SimpleVector α) (k : Nat) (x : α)
    (hwf : v.WellFormed) (hk : k ≤ v.size_) :
    ∃ w p u q, Insert v k x = .ok (w, p) ∧ Erase w p = .ok (u, q) ∧
      u.size_ = v.size_ ∧ u.elements = v.elements ∧ v.capacity_ ≤ u.capacity_ := by
  have hsl := size_le_length v hwf
  have hxs : v.elements.length = v.size_ := length_elements v hsl
  obtain ⟨w, hi, hwfw, hsw, helw, _, hcw⟩ := insertBody_facts v k x hwf hk
  obtain ⟨u, he, _, hsu, helu, hcu⟩ := Erase_facts w k hwfw (by omega)
  refine ⟨w, k, u, k, hi, he, by rw [hsu, hsw]; omega, ?_, by rw [hcu]; exact hcw⟩
  have hA : (v.elements.take k).length = k := by simp; omega
  have hA1 : (v.elements.take k ++ [x]).length = k + 1 := by
    rw [List.length_append, hA]; rfl
  have ht : (v.elements.take k ++ x :: v.elements.drop k).take k = v.elements.take k := by
    have h : List.take (v.elements.take k).length
        (v.elements.take k ++ x :: v.elements.drop k) = v.elements.take k :=
      List.take_left _ _
    rw [hA] at h
    exact h
  have hd : (v.elements.take k ++ x :: v.elements.drop k).drop (k + 1)
      = v.elements.drop k := by
    have h : List.drop (v.elements.take k ++ [x]).length
        ((v.elements.take k ++ [x]) ++ v.elements.drop k) = v.elements.drop k :=
      List.drop_left _ _
    rw [hA1, List.append_assoc] at h
    exact h
  rw [helu, helw, List.eraseIdx_eq_take_drop_succ, ht, hd, List.take_append_drop]

/-- Instance of C20: inserting 9 at offset 1 of `[1, 2, 3]` and erasing at the
returned offset gives `[1, 2, 3]` again. -/
theorem Erase_after_Insert_witness :
    ∃ w p u q, Insert (⟨[1, 2, 3], 3, 3⟩ : SimpleVector Nat) 1 9 = .ok (w, p) ∧
      Erase w p = .ok (u, q) ∧ u.size_ = 3 ∧ u.elements = [1, 2, 3] ∧ 3 ≤ u.capacity_ :=
  Erase_after_Insert (⟨[1, 2, 3], 3, 3⟩ : SimpleVector Nat) 1 9 ⟨by decide, rfl⟩ (by decide)

end SimpleVector

end SV
